import Mathlib

/-!
Verification of the structural identity-resolution and spatial-query engine
of the pdb-connect-mvs repository.

The definitions below are a shallow embedding of the TypeScript sources:
* `src/snapshot-provider/structure-info.ts` — `getChainInfo`,
  `getChainCountsInAssembly`, `getChainInstancesInAssemblies`,
  `chainSurroundings`, `findChainIndexByLabelAsymId`;
* `src/snapshot-provider/helpers.ts` — `listEntityInstancesInAssembly`,
  `listEntityInstancesInModel`;
* `src/snapshot-provider/data-provider.ts` — `extractDomainMappings`,
  `sortDomainsByEntity`.

JavaScript objects used as string-keyed dictionaries are embedded as
association lists (`List (String × α)`) that preserve insertion order, with
first-match lookup, mirroring object property access.  JavaScript numbers
used as coordinates are embedded as `Rat`; residue numbers as `Int`.
Functions that can throw (`chainSurroundings` on an unknown chain,
`listEntityInstancesInAssembly` iterating an undefined entry,
`sortDomainsByEntity` reading `chunks[0]` of a chunkless record) return
`Option`, with `none` for the throwing executions.
-/

/-- Association-list lookup: value of the first entry whose key matches,
mirroring JavaScript object property read `m[k]` (`none` = `undefined`). -/
def alistGet? {α : Type} (m : List (String × α)) (k : String) : Option α :=
  (m.find? (fun p => p.1 == k)).map (fun p => p.2)

/-- Association-list append-to-entry, mirroring `(m[k] ??= []).push(v)`:
push `v` onto the list stored at `k`, inserting a fresh singleton entry at
the end when `k` is absent. -/
def alistPush (k : String) (v : String) : List (String × List String) → List (String × List String)
  | [] => [(k, [v])]
  | (k', l) :: rest =>
    if k' == k then (k', l ++ [v]) :: rest else (k', l) :: alistPush k v rest

/-- Association-list assignment, mirroring `m[k] = v`: replace the value of
the first entry with key `k`, or append a fresh entry when `k` is absent. -/
def alistSet {α : Type} (k : String) (v : α) : List (String × α) → List (String × α)
  | [] => [(k, v)]
  | (k', v') :: rest =>
    if k' == k then (k', v) :: rest else (k', v') :: alistSet k v rest

/-- Association-list update with default, mirroring the JavaScript idiom
`f(m[k] ??= d)` where `f` mutates the entry in place. -/
def alistUpd {α : Type} (k : String) (d : α) (f : α → α) : List (String × α) → List (String × α)
  | [] => [(k, f d)]
  | (k', v) :: rest =>
    if k' == k then (k', f v) :: rest else (k', v) :: alistUpd k d f rest

/-- A symmetry operator of an assembly operator group (`group.operators[i]`). -/
structure SymmetryOperator where
  instanceId : String
deriving DecidableEq

/-- An operator group of an assembly (`assembly.operatorGroups[i]`); `asymIds`
is `none` when the group does not specify a chain set. -/
structure OperatorGroup where
  asymIds : Option (List String)
  operators : List SymmetryOperator
deriving DecidableEq

/-- One assembly of the model symmetry metadata. -/
structure Assembly where
  id : String
  operatorGroups : List OperatorGroup
deriving DecidableEq

/-- Model symmetry metadata (`ModelSymmetry.Provider.get(model)`). -/
structure Symmetry where
  assemblies : List Assembly
deriving DecidableEq

/-- Shallow embedding of the Mol* `Model` as consumed by the engine: a flat
atom table partitioned into residues and chains through offset/index tables,
per-chain and per-residue annotation columns, coordinates, and optional
symmetry metadata.  Field ↔ source correspondence:
`nChains` = `h.chains._rowCount`, `nAtoms` = `h.atoms._rowCount`,
`chainAtomOffsets` = `h.chainAtomSegments.offsets`,
`chainAtomIndex` = `h.chainAtomSegments.index`,
`residueAtomIndex` = `h.residueAtomSegments.index`,
`residueAtomOffsets` = `h.residueAtomSegments.offsets`,
`label_asym_id`/`auth_asym_id`/`label_entity_id` = `h.chains.*.value`,
`label_seq_id`/`auth_seq_id`/`pdbx_PDB_ins_code` = `h.residues.*.value`,
`x`/`y`/`z` = `model.atomicConformation.*`,
`symmetry` = `ModelSymmetry.Provider.get(model)`. -/
structure Model where
  nChains : Nat
  nAtoms : Nat
  chainAtomOffsets : Nat → Nat
  chainAtomIndex : Nat → Nat
  residueAtomIndex : Nat → Nat
  residueAtomOffsets : Nat → Nat
  label_asym_id : Nat → String
  auth_asym_id : Nat → String
  label_entity_id : Nat → String
  label_seq_id : Nat → Int
  auth_seq_id : Nat → Int
  pdbx_PDB_ins_code : Nat → String
  x : Nat → Rat
  y : Nat → Rat
  z : Nat → Rat
  symmetry : Option Symmetry

/-- The output unit of the spatial query (structure-info.ts line 253). -/
structure ResidueLocator where
  label_asym_id : String
  label_seq_id : Int
  auth_seq_id : Int
  pdbx_PDB_ins_code : String
deriving DecidableEq

/-- Embedding of `findChainIndexByLabelAsymId` (structure-info.ts lines
261-270): index of the first chain whose `label_asym_id` matches, `none`
standing for the sentinel `-1`. -/
def findChainIndexByLabelAsymId (m : Model) (labelChainId : String) : Option Nat :=
  (List.range m.nChains).find? (fun i => m.label_asym_id i == labelChainId)

/-- Axis-aligned bounding box (the `bbox` record of `chainSurroundings`). -/
structure BBox where
  xmin : Rat
  xmax : Rat
  ymin : Rat
  ymax : Rat
  zmin : Rat
  zmax : Rat

/-- Bounding box of the atoms in `[fromAtom, toAtom)` (structure-info.ts
lines 192-207): seeded with the coordinates of `fromAtom`, then folded over
the remaining atoms of the range. -/
def computeBBox (m : Model) (fromAtom toAtom : Nat) : BBox :=
  (List.range' (fromAtom + 1) (toAtom - (fromAtom + 1))).foldl
    (fun b i =>
      { xmin := min b.xmin (m.x i), xmax := max b.xmax (m.x i),
        ymin := min b.ymin (m.y i), ymax := max b.ymax (m.y i),
        zmin := min b.zmin (m.z i), zmax := max b.zmax (m.z i) })
    { xmin := m.x fromAtom, xmax := m.x fromAtom,
      ymin := m.y fromAtom, ymax := m.y fromAtom,
      zmin := m.z fromAtom, zmax := m.z fromAtom }

/-- Bounding box extended by `radius` on all six faces (lines 208-214). -/
def expandBBox (b : BBox) (radius : Rat) : BBox :=
  { xmin := b.xmin - radius, xmax := b.xmax + radius,
    ymin := b.ymin - radius, ymax := b.ymax + radius,
    zmin := b.zmin - radius, zmax := b.zmax + radius }

/-- Inner distance loop of `chainSurroundings` (lines 234-243): does atom
`iAtom` lie within `sqRadius` (squared) of any atom of `[fromAtom, toAtom)`?
`List.any` short-circuits on the first hit exactly like the `break`. -/
def atomHitsTarget (m : Model) (fromAtom toAtom : Nat) (sqRadius : Rat) (iAtom : Nat) : Bool :=
  (List.range' fromAtom (toAtom - fromAtom)).any (fun iTgt =>
    decide ((m.x iAtom - m.x iTgt) ^ 2 + (m.y iAtom - m.y iTgt) ^ 2
      + (m.z iAtom - m.z iTgt) ^ 2 ≤ sqRadius))

/-- Conditional push of lines 237-240: append the residue index unless it
equals the most recently appended one (`outResidues[outResidues.length - 1]`). -/
def pushResidueDedup (acc : List Nat) (iRes : Nat) : List Nat :=
  if acc.getLast? = some iRes then acc else acc ++ [iRes]

/-- One iteration of the main atom loop of `chainSurroundings` (lines
220-244), with the `continue` chain rendered as nested conditionals in
source order: skip the target chain's own atom range, then the six
bounding-box rejections, then the distance test. -/
def surroundingsStep (m : Model) (fromAtom toAtom : Nat) (bbox : BBox) (sqRadius : Rat)
    (acc : List Nat) (iAtom : Nat) : List Nat :=
  if fromAtom ≤ iAtom ∧ iAtom < toAtom then acc
  else if m.x iAtom < bbox.xmin then acc
  else if m.x iAtom > bbox.xmax then acc
  else if m.y iAtom < bbox.ymin then acc
  else if m.y iAtom > bbox.ymax then acc
  else if m.z iAtom < bbox.zmin then acc
  else if m.z iAtom > bbox.zmax then acc
  else if atomHitsTarget m fromAtom toAtom sqRadius iAtom then
    pushResidueDedup acc (m.residueAtomIndex iAtom)
  else acc

/-- Embedding of `chainSurroundings` (structure-info.ts lines 183-258).
`none` models the `throw new Error("Chain ... not found")` path. -/
def chainSurroundings (m : Model) (labelChainId : String) (radius : Rat) :
    Option (List ResidueLocator) :=
  match findChainIndexByLabelAsymId m labelChainId with
  | none => none
  | some iChain =>
    let fromAtom := m.chainAtomOffsets iChain
    let toAtom := m.chainAtomOffsets (iChain + 1)
    let bbox := expandBBox (computeBBox m fromAtom toAtom) radius
    let sqRadius := radius ^ 2
    let outResidues := (List.range m.nAtoms).foldl
      (surroundingsStep m fromAtom toAtom bbox sqRadius) []
    some (outResidues.map (fun iRes =>
      let iAtom := m.residueAtomOffsets iRes
      let iC := m.chainAtomIndex iAtom
      { label_asym_id := m.label_asym_id iC,
        label_seq_id := m.label_seq_id iRes,
        auth_seq_id := m.auth_seq_id iRes,
        pdbx_PDB_ins_code := m.pdbx_PDB_ins_code iRes }))

/-- Helper for `unique`: keep the elements not yet seen, in order, recording
seen elements in the accumulator. -/
def uniqueAux : List String → List String → List String
  | [], _ => []
  | x :: xs, seen => if x ∈ seen then uniqueAux xs seen else x :: uniqueAux xs (x :: seen)

/-- Modelled from the spec: the helper `unique` imported from `helpers.ts`
(its definition is not among the provided sources) — per §3/§4.2 it returns
the "deduplicated (first occurrence kept, first-seen order preserved)" list. -/
def unique (l : List String) : List String :=
  uniqueAux l []

/-- One per-assembly entry of `ChainInstancesInfo` (structure-info.ts lines
121-134), with the two dictionaries as insertion-ordered association lists. -/
structure ChainInstancesEntry where
  allOperators : List String
  operatorsPerChain : List (String × List String)
  chainsPerOperator : List (String × List String)
deriving DecidableEq

/-- Mutable state of the loop of `getChainInstancesInAssemblies` for one
assembly: `allOperators` before deduplication, plus the two dictionaries. -/
structure BuildState where
  allOps : List String
  opc : List (String × List String)
  cpo : List (String × List String)
deriving DecidableEq

/-- Innermost loop of `getChainInstancesInAssemblies` (lines 150-153): for
each chain of the group's chain set, push the operator's instance id onto
`operatorsPerChain[chain]` and the chain onto `chainsPerOperator[instanceId]`. -/
def applyOpChains (instId : String) : List String →
    List (String × List String) × List (String × List String) →
    List (String × List String) × List (String × List String)
  | [], st => st
  | c :: cs, (opc, cpo) => applyOpChains instId cs (alistPush c instId opc, alistPush instId c cpo)

/-- Middle loop of `getChainInstancesInAssemblies` (lines 146-155): for each
operator of the group, push its instance id onto `allOperators`, then (when
the group has a chain set) run the chain loop. -/
def applyGroupOps (asymIds : Option (List String)) : List SymmetryOperator → BuildState → BuildState
  | [], st => st
  | op :: ops, st =>
    let allOps := st.allOps ++ [op.instanceId]
    match asymIds with
    | none => applyGroupOps none ops { st with allOps := allOps }
    | some chains =>
      let pc := applyOpChains op.instanceId chains (st.opc, st.cpo)
      applyGroupOps (some chains) ops { allOps := allOps, opc := pc.1, cpo := pc.2 }

/-- Outer loop of `getChainInstancesInAssemblies` (lines 145-156) over the
assembly's operator groups. -/
def applyGroups : List OperatorGroup → BuildState → BuildState
  | [], st => st
  | g :: gs, st => applyGroups gs (applyGroupOps g.asymIds g.operators st)

/-- The `ChainInstancesInfo` entry built for one assembly (lines 142-157):
run the group loops from the empty state, then deduplicate `allOperators`. -/
def buildEntry (groups : List OperatorGroup) : ChainInstancesEntry :=
  let st := applyGroups groups { allOps := [], opc := [], cpo := [] }
  { allOperators := unique st.allOps, operatorsPerChain := st.opc, chainsPerOperator := st.cpo }

/-- The `symmetry?.assemblies ?? []` access shared by the assembly queries. -/
def modelAssemblies (m : Model) : List Assembly :=
  match m.symmetry with
  | none => []
  | some s => s.assemblies

/-- Embedding of `getChainInstancesInAssemblies` (structure-info.ts lines
137-160): one entry per assembly of the symmetry metadata, keyed by its id. -/
def getChainInstancesInAssemblies (m : Model) : List (String × ChainInstancesEntry) :=
  (modelAssemblies m).map (fun assembly => (assembly.id, buildEntry assembly.operatorGroups))

/-- Association-list counter increment, mirroring
`m[k] ??= 0; m[k] += n` (structure-info.ts lines 113-114). -/
def alistAddNat (k : String) (n : Nat) (m : List (String × Nat)) : List (String × Nat) :=
  alistSet k (((alistGet? m k).getD 0) + n) m

/-- Character-wise lowercase, embedding the `.toLowerCase()` calls of
`getChainCountsInAssembly` (equivalent to `String.toLower`, but defined by a
structural list map). -/
def toLowerStr (s : String) : String :=
  String.mk (s.data.map Char.toLower)

/-- Embedding of `getChainCountsInAssembly` (structure-info.ts lines 96-118):
`none` for the second argument models the `undefined` deposited-model call;
a non-existing assembly id yields the empty dictionary (line 109). -/
def getChainCountsInAssembly (m : Model) (assemblyId : Option String) : List (String × Nat) :=
  match assemblyId with
  | none =>
    (List.range m.nChains).foldl (fun acc i => alistSet (m.label_asym_id i) 1 acc) []
  | some aid =>
    match (modelAssemblies m).find? (fun a => toLowerStr a.id == toLowerStr aid) with
    | none => []
    | some assembly =>
      assembly.operatorGroups.foldl (fun acc g =>
        match g.asymIds with
        | none => acc
        | some chains => chains.foldl (fun acc c => alistAddNat c g.operators.length acc) acc) []

/-- The entity record fields used by the instance resolver
(data-provider.ts `EntityRecord`, restricted to the consumed fields). -/
structure EntityRecord where
  id : String
  chains : List String
deriving DecidableEq

/-- One element of the instance-resolver output: `labelAsymId` plus an
optional operator `instanceId` (`none` = the deposited-model copy). -/
structure EntityInstance where
  labelAsymId : String
  instanceId : Option String
deriving DecidableEq

/-- Loop of `listEntityInstancesInAssembly` (helpers.ts lines 295-301) over
the operator instance ids; the lookup `chainsPerOperator[instanceId]` may be
`undefined`, in which case the `for..of` over it throws — modelled as `none`. -/
def listEntityInstancesLoop (entityChains : List String)
    (cpo : List (String × List String)) : List String → Option (List EntityInstance)
  | [] => some []
  | instId :: rest =>
    match alistGet? cpo instId with
    | none => none
    | some chains =>
      match listEntityInstancesLoop entityChains cpo rest with
      | none => none
      | some out =>
        some (((chains.filter (fun c => entityChains.contains c)).map
          (fun c => { labelAsymId := c, instanceId := some instId })) ++ out)

/-- Embedding of `listEntityInstancesInAssembly` (helpers.ts lines 292-303). -/
def listEntityInstancesInAssembly (entity : EntityRecord) (cii : ChainInstancesEntry) :
    Option (List EntityInstance) :=
  listEntityInstancesLoop entity.chains cii.chainsPerOperator cii.allOperators

/-- Embedding of `listEntityInstancesInModel` (helpers.ts lines 304-310),
written as the source's push loop. -/
def listEntityInstancesInModel (entity : EntityRecord) : List EntityInstance :=
  entity.chains.foldl (fun out c => out ++ [{ labelAsymId := c, instanceId := none }]) []

/-- One contiguous residue range of a domain (data-provider.ts
`DomainChunkRecord`, lines 344-358). -/
structure DomainChunkRecord where
  entityId : String
  chainId : String
  authChainId : String
  startResidue : Option Int
  endResidue : Option Int
  segment : Nat
deriving DecidableEq

/-- A reconciled domain (data-provider.ts `DomainRecord`, lines 335-341). -/
structure DomainRecord where
  id : String
  source : String
  family : String
  familyName : String
  chunks : List DomainChunkRecord
deriving DecidableEq

/-- One flat SIFTS mapping record as consumed by `extractDomainMappings`:
`domain`/`scop_id` are the optional identifiers, `start`/`endRes` embed
`mapping.start?.residue_number` / `mapping.end?.residue_number`
(`endRes` because `end` is reserved in Lean). -/
structure MappingRecord where
  domain : Option String
  scop_id : Option String
  entity_id : Int
  struct_asym_id : String
  chain_id : String
  start : Option Int
  endRes : Option Int
deriving DecidableEq

/-- Range normalization of data-provider.ts lines 267-269: when both bounds
are defined and start > end, swap them; otherwise keep them as stored. -/
def normalizeRange (s e : Option Int) : Option Int × Option Int :=
  match s, e with
  | some a, some b => if a > b then (some b, some a) else (some a, some b)
  | s, e => (s, e)

/-- The closure `getAdHocDomainId` of data-provider.ts lines 251-255, with
the captured `domainCount` dictionary made an explicit argument and the
updated dictionary returned alongside the synthesized id. -/
def getAdHocDomainId (family : String) (domainCount : List (String × Nat)) (chain : String) :
    String × List (String × Nat) :=
  let num := ((alistGet? domainCount chain).getD 0) + 1
  let id := if num = 1 then family ++ "_" ++ chain
    else family ++ "_" ++ chain ++ "_" ++ toString num
  (id, alistSet chain num domainCount)

/-- Domain identity resolution of line 257
(`mapping.domain ?? mapping.scop_id ?? getAdHocDomainId(mapping.chain_id)`),
threading the counter dictionary, which is consulted and updated only when
both identifiers are absent (the `??` short-circuit). -/
def resolveDomainId (family : String) (domainCount : List (String × Nat)) (m : MappingRecord) :
    String × List (String × Nat) :=
  match m.domain with
  | some d => (d, domainCount)
  | none =>
    match m.scop_id with
    | some s => (s, domainCount)
    | none => getAdHocDomainId family domainCount m.chain_id

/-- In-place chunk append of line 271 (`existingDomain.chunks.push(chunk)`):
rewrite the first record with the given id to carry the extra chunk. -/
def appendChunkToDomain (domainId : String) (c : DomainChunkRecord) :
    List DomainRecord → List DomainRecord
  | [] => []
  | r :: rs =>
    if r.id == domainId then { r with chunks := r.chunks ++ [c] } :: rs
    else r :: appendChunkToDomain domainId c rs

/-- The chunk object built for one mapping record (data-provider.ts lines
259-269), with the range normalization of lines 267-269 applied and the
segment number passed in (1 for a fresh domain, previous chunk count + 1 for
an existing one, line 265). -/
def mkChunk (m : MappingRecord) (seg : Nat) : DomainChunkRecord :=
  { entityId := toString m.entity_id,
    chainId := m.struct_asym_id,
    authChainId := m.chain_id,
    startResidue := (normalizeRange m.start m.endRes).1,
    endResidue := (normalizeRange m.start m.endRes).2,
    segment := seg }

/-- The `result`-dictionary update for one mapping record (data-provider.ts
lines 258-280): append a chunk to the existing record with the resolved
domain id, or store a fresh single-chunk record under it. -/
def extractStepRecs (source family familyName domainId : String) (m : MappingRecord)
    (recs : List DomainRecord) : List DomainRecord :=
  match recs.find? (fun r => r.id == domainId) with
  | some d => appendChunkToDomain domainId (mkChunk m (d.chunks.length + 1)) recs
  | none => recs ++ [DomainRecord.mk domainId source family familyName [mkChunk m 1]]

/-- Main loop of `extractDomainMappings` (data-provider.ts lines 256-281)
over the flat mapping records.  The `result` dictionary keyed by domain id is
embedded as the insertion-ordered list of its records (every stored record's
`id` equals its key), and the `domainCount` closure state is threaded. -/
def extractLoop (source family familyName : String) :
    List MappingRecord → List DomainRecord → List (String × Nat) → List DomainRecord
  | [], recs, _ => recs
  | m :: ms, recs, domainCount =>
    extractLoop source family familyName ms
      (extractStepRecs source family familyName (resolveDomainId family domainCount m).1 m recs)
      (resolveDomainId family domainCount m).2

/-- Lexicographic strict comparison of char lists, the order JavaScript's
`<` applies to the domain-id strings (computable by structural recursion). -/
def charListLt : List Char → List Char → Bool
  | [], [] => false
  | [], _ :: _ => true
  | _ :: _, [] => false
  | a :: as, b :: bs => if a < b then true else if b < a then false else charListLt as bs

/-- Strict lexicographic comparison on strings (`a.id < b.id` of line 282). -/
def strLtB (a b : String) : Bool :=
  charListLt a.data b.data

/-- Sorted insertion by domain id. -/
def insertById (r : DomainRecord) : List DomainRecord → List DomainRecord
  | [] => [r]
  | r' :: rs => if strLtB r'.id r.id then r' :: insertById r rs else r :: r' :: rs

/-- The final `.sort((a, b) => a.id < b.id ? -1 : 1)` of line 282: since the
stored ids are pairwise distinct, the JavaScript sort's output is the unique
id-ascending permutation, which insertion sort by id produces. -/
def sortById : List DomainRecord → List DomainRecord
  | [] => []
  | r :: rs => insertById r (sortById rs)

/-- Embedding of `extractDomainMappings` (data-provider.ts lines 248-283). -/
def extractDomainMappings (mappings : List MappingRecord)
    (source family familyName : String) : List DomainRecord :=
  sortById (extractLoop source family familyName mappings [] [])

/-- Nesting of the source→family→[DomainRecord] input of `sortDomainsByEntity`. -/
abbrev DomainsBySourceFamily := List (String × List (String × List DomainRecord))

/-- Nesting of the source→family→entity→[DomainRecord] output. -/
abbrev DomainsBySourceFamilyEntity :=
  List (String × List (String × List (String × List DomainRecord)))

/-- The iteration order of the three nested `for..of Object.entries` loops of
`sortDomainsByEntity` (data-provider.ts lines 288-295), flattened: one
(source, family, record) triple per executed loop body, in execution order. -/
def domainTriples (domains : DomainsBySourceFamily) : List (String × String × DomainRecord) :=
  domains.flatMap (fun sd => sd.2.flatMap (fun fd => fd.2.map (fun d => (sd.1, fd.1, d))))

/-- Loop body accumulation of `sortDomainsByEntity` (lines 291-292): read the
entity id of the record's first chunk (`domain.chunks[0].entityId` — a
chunkless record makes this throw, modelled as `none`), then push the record
through the triple default-insert chain. -/
def sortDomainsByEntityLoop : List (String × String × DomainRecord) →
    DomainsBySourceFamilyEntity → Option DomainsBySourceFamilyEntity
  | [], acc => some acc
  | (s, f, d) :: rest, acc =>
    match d.chunks.head? with
    | none => none
    | some c =>
      sortDomainsByEntityLoop rest
        (alistUpd s [] (alistUpd f [] (alistUpd c.entityId [] (fun l => l ++ [d]))) acc)

/-- Embedding of `sortDomainsByEntity` (data-provider.ts lines 286-297). -/
def sortDomainsByEntity (domains : DomainsBySourceFamily) :
    Option DomainsBySourceFamilyEntity :=
  sortDomainsByEntityLoop (domainTriples domains) []

/-! ### Generic lemmas about the association-list embedding and the loops -/

theorem find?_isSome_eq_any {α : Type} (l : List α) (p : α → Bool) :
    (l.find? p).isSome = l.any p := by
  induction l with
  | nil => rfl
  | cons x xs ih =>
    by_cases h : p x
    · simp [List.find?_cons, h]
    · simp only [List.find?_cons, h, List.any_cons]
      simp only [Bool.false_eq_true, if_false, ih, h, Bool.false_or]

theorem surroundingsStep_skip (m : Model) (fa ta : Nat) (bb : BBox) (sq : Rat)
    (acc : List Nat) (i : Nat) (h1 : fa ≤ i) (h2 : i < ta) :
    surroundingsStep m fa ta bb sq acc i = acc := by
  unfold surroundingsStep
  rw [if_pos ⟨h1, h2⟩]

theorem mem_surroundingsStep {m : Model} {fa ta : Nat} {bb : BBox} {sq : Rat}
    {acc : List Nat} {i r : Nat} (h : r ∈ surroundingsStep m fa ta bb sq acc i) :
    r ∈ acc ∨ (¬(fa ≤ i ∧ i < ta) ∧ r = m.residueAtomIndex i) := by
  unfold surroundingsStep at h
  split_ifs at h with h1 h2 h3 h4 h5 h6 h7 h8
  all_goals try exact Or.inl h
  unfold pushResidueDedup at h
  split_ifs at h with h9
  · exact Or.inl h
  · rcases List.mem_append.mp h with h' | h'
    · exact Or.inl h'
    · exact Or.inr ⟨h1, List.mem_singleton.mp h'⟩

theorem mem_foldl_surroundingsStep (m : Model) (fa ta : Nat) (bb : BBox) (sq : Rat) :
    ∀ (l : List Nat) (acc : List Nat) (r : Nat),
      r ∈ l.foldl (surroundingsStep m fa ta bb sq) acc →
      r ∈ acc ∨ ∃ i, i ∈ l ∧ ¬(fa ≤ i ∧ i < ta) ∧ r = m.residueAtomIndex i := by
  intro l
  induction l with
  | nil => intro acc r h; exact Or.inl h
  | cons i l ih =>
    intro acc r h
    rw [List.foldl_cons] at h
    rcases ih _ r h with h' | ⟨j, hj, hskip, hr⟩
    · rcases mem_surroundingsStep h' with h'' | ⟨hskip, hr⟩
      · exact Or.inl h''
      · exact Or.inr ⟨i, List.mem_cons_self i l, hskip, hr⟩
    · exact Or.inr ⟨j, List.mem_cons_of_mem i hj, hskip, hr⟩

/-! ### Claim C6 -/

/-- Claim C6: `chainSurroundings(model, targetChainId, radius)` raises the
chain-not-found error exactly when no chain in the model has label chain id
equal to `targetChainId` (embedded: the result is `some` — an ordered list of
`ResidueLocator`s — if and only if some chain row matches). -/
theorem claim_C6 (m : Model) (targetChainId : String) (radius : Rat) :
    (chainSurroundings m targetChainId radius).isSome
      = (List.range m.nChains).any (fun i => m.label_asym_id i == targetChainId) := by
  rw [← find?_isSome_eq_any]
  unfold chainSurroundings findChainIndexByLabelAsymId
  cases h : (List.range m.nChains).find? (fun i => m.label_asym_id i == targetChainId) <;>
    simp [h]

/-- Witness for C6 at a concrete two-chain model: looking up the absent chain
id fails, looking up a present one succeeds. -/
def modelTwoChains : Model where
  nChains := 2
  nAtoms := 4
  chainAtomOffsets := fun i => if i = 0 then 0 else if i = 1 then 2 else 4
  chainAtomIndex := fun a => if a < 2 then 0 else 1
  residueAtomIndex := fun a => a
  residueAtomOffsets := fun r => r
  label_asym_id := fun i => if i = 0 then "A" else "B"
  auth_asym_id := fun i => if i = 0 then "A" else "B"
  label_entity_id := fun _ => "1"
  label_seq_id := fun r => (r : Int) + 1
  auth_seq_id := fun r => (r : Int) + 1
  pdbx_PDB_ins_code := fun _ => ""
  x := fun a => if a = 0 then 0 else if a = 1 then 1 else if a = 2 then 3 else 100
  y := fun _ => 0
  z := fun _ => 0
  symmetry := none

theorem claim_C6_witness :
    (chainSurroundings modelTwoChains "Z" 5).isSome
      = (List.range modelTwoChains.nChains).any
          (fun i => modelTwoChains.label_asym_id i == "Z") :=
  claim_C6 modelTwoChains "Z" 5

/-! ### Claim C1 -/

/-- Claim C1: for every model (whose atom/chain tables satisfy the §3
contiguity and label-uniqueness invariants), every chain id `C` present in
the model and every radius `r > 0`, the spatial query skips each atom of the
target chain's range `[fromAtom, toAtom)` unconditionally (the first
conjunct, stated for the loop body), and consequently the returned list
contains no `ResidueLocator` whose chain is `C` itself. -/
theorem claim_C1 (m : Model) (C : String) (radius : Rat)
    (hrad : 0 < radius)
    (hex : ∃ i, i < m.nChains ∧ m.label_asym_id i = C)
    (hpart : ∀ a, a < m.nAtoms → m.chainAtomIndex a < m.nChains ∧
      m.chainAtomOffsets (m.chainAtomIndex a) ≤ a ∧
      a < m.chainAtomOffsets (m.chainAtomIndex a + 1))
    (hres : ∀ a, a < m.nAtoms →
      m.chainAtomIndex (m.residueAtomOffsets (m.residueAtomIndex a)) = m.chainAtomIndex a)
    (hlabels : ∀ i, i < m.nChains → ∀ j, j < m.nChains →
      m.label_asym_id i = m.label_asym_id j → i = j) :
    (∀ fa ta bb sq acc i, fa ≤ i → i < ta →
        surroundingsStep m fa ta bb sq acc i = acc) ∧
    (chainSurroundings m C radius).isSome = true ∧
    ((chainSurroundings m C radius).getD []).all
      (fun loc => !(loc.label_asym_id == C)) = true := by
  refine ⟨fun fa ta bb sq acc i h1 h2 => surroundingsStep_skip m fa ta bb sq acc i h1 h2, ?_, ?_⟩
  · rw [claim_C6, List.any_eq_true]
    obtain ⟨i, hi, hlab⟩ := hex
    exact ⟨i, List.mem_range.mpr hi, by simp [hlab]⟩
  · cases hfind : findChainIndexByLabelAsymId m C with
    | none => simp [chainSurroundings, hfind]
    | some iChain =>
      have hiChain : iChain < m.nChains := by
        have := List.mem_of_find?_eq_some hfind
        exact List.mem_range.mp this
      have hlabC : m.label_asym_id iChain = C := by
        have := List.find?_some hfind
        exact eq_of_beq this
      simp only [chainSurroundings, hfind, Option.getD_some, List.all_eq_true]
      intro loc hloc
      rw [List.mem_map] at hloc
      obtain ⟨iRes, hiRes, hlocEq⟩ := hloc
      rcases mem_foldl_surroundingsStep m _ _ _ _ _ _ _ hiRes with h | ⟨a, ha, hskip, hr⟩
      · exact absurd h (List.not_mem_nil iRes)
      have haN : a < m.nAtoms := List.mem_range.mp ha
      obtain ⟨hcN, hfrom, hto⟩ := hpart a haN
      have hne : m.chainAtomIndex a ≠ iChain := by
        intro heq
        exact hskip ⟨heq ▸ hfrom, heq ▸ hto⟩
      have hlabne : m.label_asym_id (m.chainAtomIndex a) ≠ C := by
        intro heq
        exact hne (hlabels _ hcN _ hiChain (heq.trans hlabC.symm))
      subst hlocEq
      simp only [Bool.not_eq_eq_eq_not, Bool.not_true, beq_eq_false_iff_ne, ne_eq]
      rw [hr, hres a haN]
      exact hlabne

/-- Witness for C1: the two-chain model satisfies the invariants, chain "A"
exists, and the theorem applies at radius 5. -/
theorem claim_C1_witness :
    (0:Rat) < 5 ∧
    (∃ i, i < modelTwoChains.nChains ∧ modelTwoChains.label_asym_id i = "A") ∧
    (∀ a, a < modelTwoChains.nAtoms → modelTwoChains.chainAtomIndex a < modelTwoChains.nChains ∧
      modelTwoChains.chainAtomOffsets (modelTwoChains.chainAtomIndex a) ≤ a ∧
      a < modelTwoChains.chainAtomOffsets (modelTwoChains.chainAtomIndex a + 1)) ∧
    (∀ a, a < modelTwoChains.nAtoms →
      modelTwoChains.chainAtomIndex
        (modelTwoChains.residueAtomOffsets (modelTwoChains.residueAtomIndex a))
        = modelTwoChains.chainAtomIndex a) ∧
    (∀ i, i < modelTwoChains.nChains → ∀ j, j < modelTwoChains.nChains →
      modelTwoChains.label_asym_id i = modelTwoChains.label_asym_id j → i = j) ∧
    ((chainSurroundings modelTwoChains "A" 5).isSome = true ∧
      ((chainSurroundings modelTwoChains "A" 5).getD []).all
        (fun loc => !(loc.label_asym_id == "A")) = true) :=
  ⟨by decide, ⟨0, by decide, by decide⟩, by decide, by decide, by decide,
    (claim_C1 modelTwoChains "A" 5 (by decide) ⟨0, by decide, by decide⟩
      (by decide) (by decide) (by decide)).2⟩

/-! ### Claim C2 -/

/-- A model with symmetry metadata holding two assemblies: "1" (one group of
2 operators applied to chains A, B, C) and "2" (one chainless operator group
plus one group applying one operator to chain A). -/
def assemblyOne : Assembly where
  id := "1"
  operatorGroups := [{ asymIds := some ["A", "B", "C"],
                       operators := [{ instanceId := "ASM-1" }, { instanceId := "ASM-2" }] }]

def assemblyTwo : Assembly where
  id := "2"
  operatorGroups := [{ asymIds := none, operators := [{ instanceId := "OP-X" }] },
                     { asymIds := some ["A"], operators := [{ instanceId := "OP-Y" }] }]

def modelWithAssemblies : Model :=
  { modelTwoChains with symmetry := some { assemblies := [assemblyOne, assemblyTwo] } }

theorem alistGet?_eq_none {α : Type} {m : List (String × α)} {k : String}
    (h : ∀ p ∈ m, p.1 ≠ k) : alistGet? m k = none := by
  unfold alistGet?
  rw [List.find?_eq_none.mpr, Option.map_none']
  intro p hp
  simpa using h p hp

/-- Counterexample to claim C2 as stated: in a model whose symmetry metadata
holds assemblies "1" and "2" only, the assembly-operator index delivers no
entry at all (`undefined`, embedded `none`) for the absent id "7" — not an
empty `ChainInstancesInfo` entry. -/
theorem claim_C2_counterexample :
    ¬ (alistGet? (getChainInstancesInAssemblies modelWithAssemblies) "7"
      = some { allOperators := [], operatorsPerChain := [], chainsPerOperator := [] }) := by
  decide

/-- Claim C2 (amended): for every assembly id absent from the model's
symmetry metadata, neither assembly query throws; the assembly-operator
index simply has no entry for that id (the lookup yields `undefined`,
embedded as `none`, rather than an empty entry), while
`getChainCountsInAssembly` delivers an empty dictionary for that id. -/
theorem claim_C2 (m : Model) (assemblyId : String)
    (habsent : ∀ a ∈ modelAssemblies m, toLowerStr a.id ≠ toLowerStr assemblyId) :
    alistGet? (getChainInstancesInAssemblies m) assemblyId = none ∧
    getChainCountsInAssembly m (some assemblyId) = [] := by
  constructor
  · apply alistGet?_eq_none
    intro p hp
    unfold getChainInstancesInAssemblies at hp
    rw [List.mem_map] at hp
    obtain ⟨a, ha, hpa⟩ := hp
    have : a.id ≠ assemblyId := fun h => habsent a ha (h ▸ rfl)
    rw [← hpa]
    exact this
  · have hfind : (modelAssemblies m).find? (fun a => toLowerStr a.id == toLowerStr assemblyId) = none := by
      rw [List.find?_eq_none]
      intro a ha
      simpa using habsent a ha
    simp [getChainCountsInAssembly, hfind]

/-- Witness for C2 (amended) at the concrete model and the absent id "7". -/
theorem claim_C2_witness :
    (∀ a ∈ modelAssemblies modelWithAssemblies, toLowerStr a.id ≠ toLowerStr "7") ∧
    (alistGet? (getChainInstancesInAssemblies modelWithAssemblies) "7" = none ∧
      getChainCountsInAssembly modelWithAssemblies (some "7") = []) :=
  ⟨by decide, claim_C2 modelWithAssemblies "7" (by decide)⟩

/-! ### Claim C3 -/

/-- Association-list lookup defaulting to the empty list (reading a
per-chain/per-operator index where a missing key contributes no entries). -/
def alistGetD (m : List (String × List String)) (k : String) : List String :=
  (alistGet? m k).getD []

theorem alistGet?_nil {α : Type} (k : String) : alistGet? ([] : List (String × α)) k = none :=
  rfl

theorem alistGet?_cons {α : Type} (k0 : String) (v : α) (rest : List (String × α)) (k : String) :
    alistGet? ((k0, v) :: rest) k = if k0 = k then some v else alistGet? rest k := by
  unfold alistGet?
  rw [List.find?_cons]
  by_cases h : k0 = k
  · simp [h]
  · have hb : (k0 == k) = false := beq_eq_false_iff_ne.mpr h
    simp [hb, h]

theorem alistGet?_push (k v k' : String) (m : List (String × List String)) :
    alistGet? (alistPush k v m) k'
      = if k' = k then some ((alistGetD m k) ++ [v]) else alistGet? m k' := by
  induction m with
  | nil =>
    by_cases h : k' = k
    · subst h
      simp [alistPush, alistGet?_cons, alistGetD, alistGet?_nil]
    · simp [alistPush, alistGet?_cons, alistGet?_nil, h, Ne.symm h]
  | cons p rest ih =>
    obtain ⟨k0, l⟩ := p
    by_cases h0 : k0 = k
    · subst h0
      by_cases h : k' = k0
      · subst h
        simp [alistPush, alistGet?_cons, alistGetD]
      · simp [alistPush, alistGet?_cons, alistGetD, h, Ne.symm h]
    · by_cases h : k' = k0
      · subst h
        have hk : k' ≠ k := h0
        simp [alistPush, alistGet?_cons, h0, Ne.symm h0, hk]
      · have hpush : alistPush k v ((k0, l) :: rest) = (k0, l) :: alistPush k v rest := by
          simp [alistPush, h0]
        rw [hpush, alistGet?_cons, if_neg (Ne.symm h), ih, alistGet?_cons, if_neg (Ne.symm h)]
        by_cases hkk : k' = k
        · subst hkk
          simp [alistGetD, alistGet?_cons, Ne.symm h]
        · simp [hkk]

theorem count_alistGetD_push (k v k' v' : String) (m : List (String × List String)) :
    ((alistGetD (alistPush k v m) k').count v')
      = (alistGetD m k').count v' + (if k' = k ∧ v' = v then 1 else 0) := by
  by_cases hk : k' = k
  · subst hk
    rw [alistGetD, alistGet?_push, if_pos rfl, Option.getD_some]
    by_cases hv : v' = v
    · subst hv
      simp [List.count_append, List.count_cons, alistGetD]
    · simp [List.count_append, List.count_cons, hv, alistGetD]
  · rw [alistGetD, alistGet?_push, if_neg hk]
    simp [hk, alistGetD]

theorem applyOpChains_count (instId : String) :
    ∀ (cs : List String) (opc cpo : List (String × List String)) (c t : String),
      ((alistGetD (applyOpChains instId cs (opc, cpo)).1 c).count t
        = (alistGetD opc c).count t + (if t = instId then cs.count c else 0)) ∧
      ((alistGetD (applyOpChains instId cs (opc, cpo)).2 t).count c
        = (alistGetD cpo t).count c + (if t = instId then cs.count c else 0)) := by
  intro cs
  induction cs with
  | nil => intro opc cpo c t; simp [applyOpChains]
  | cons c0 cs ih =>
    intro opc cpo c t
    simp only [applyOpChains]
    obtain ⟨ih1, ih2⟩ := ih (alistPush c0 instId opc) (alistPush instId c0 cpo) c t
    have hcount : (c0 :: cs).count c = cs.count c + (if c = c0 then 1 else 0) := by
      rw [List.count_cons]
      rcases eq_or_ne c c0 with h | h
      · simp [h]
      · simp [h, Ne.symm h]
    constructor
    · rw [ih1, count_alistGetD_push, hcount]
      rcases eq_or_ne c c0 with h1 | h1 <;> rcases eq_or_ne t instId with h2 | h2
      · simp [h1, h2] <;> omega
      · simp [h1, h2] <;> omega
      · simp [h1, Ne.symm h1, h2] <;> omega
      · simp [h1, Ne.symm h1, h2, Ne.symm h2] <;> omega
    · rw [ih2, count_alistGetD_push, hcount]
      rcases eq_or_ne c c0 with h1 | h1 <;> rcases eq_or_ne t instId with h2 | h2
      · simp [h1, h2] <;> omega
      · simp [h1, h2] <;> omega
      · simp [h1, Ne.symm h1, h2] <;> omega
      · simp [h1, Ne.symm h1, h2, Ne.symm h2] <;> omega

theorem applyGroupOps_none_state : ∀ (ops : List SymmetryOperator) (st : BuildState),
    (applyGroupOps none ops st).opc = st.opc ∧ (applyGroupOps none ops st).cpo = st.cpo := by
  intro ops
  induction ops with
  | nil => intro st; exact ⟨rfl, rfl⟩
  | cons op ops ih => intro st; simpa [applyGroupOps] using ih _

theorem applyGroupOps_allOps (ai : Option (List String)) :
    ∀ (ops : List SymmetryOperator) (st : BuildState),
      (applyGroupOps ai ops st).allOps = st.allOps ++ ops.map SymmetryOperator.instanceId := by
  intro ops
  induction ops with
  | nil => intro st; cases ai <;> simp [applyGroupOps]
  | cons op ops ih =>
    intro st
    cases ai with
    | none => rw [applyGroupOps]; rw [ih]; simp
    | some cs => rw [applyGroupOps]; rw [ih]; simp

theorem applyGroupOps_count (ai : Option (List String)) :
    ∀ (ops : List SymmetryOperator) (st : BuildState) (c t : String),
      ((alistGetD (applyGroupOps ai ops st).opc c).count t
        = (alistGetD st.opc c).count t
          + (ops.map SymmetryOperator.instanceId).count t * ((ai.getD []).count c)) ∧
      ((alistGetD (applyGroupOps ai ops st).cpo t).count c
        = (alistGetD st.cpo t).count c
          + (ops.map SymmetryOperator.instanceId).count t * ((ai.getD []).count c)) := by
  intro ops
  induction ops with
  | nil => intro st c t; cases ai <;> simp [applyGroupOps]
  | cons op ops ih =>
    intro st c t
    cases ai with
    | none =>
      rw [applyGroupOps]
      obtain ⟨ih1, ih2⟩ := ih { st with allOps := st.allOps ++ [op.instanceId] } c t
      simp only [Option.getD_none, List.count_nil, Nat.mul_zero, Nat.add_zero] at ih1 ih2 ⊢
      exact ⟨ih1, ih2⟩
    | some cs =>
      rw [applyGroupOps]
      obtain ⟨hc1, hc2⟩ := applyOpChains_count op.instanceId cs st.opc st.cpo c t
      obtain ⟨ih1, ih2⟩ := ih ⟨st.allOps ++ [op.instanceId],
        (applyOpChains op.instanceId cs (st.opc, st.cpo)).1,
        (applyOpChains op.instanceId cs (st.opc, st.cpo)).2⟩ c t
      simp only [Option.getD_some] at ih1 ih2 ⊢
      rw [ih1, hc1, ih2, hc2]
      have hcn : ((op :: ops).map SymmetryOperator.instanceId).count t
          = (ops.map SymmetryOperator.instanceId).count t
            + (if t = op.instanceId then 1 else 0) := by
        rw [List.map_cons, List.count_cons]
        rcases eq_or_ne t op.instanceId with h | h
        · simp [h]
        · simp [h, Ne.symm h]
      rw [hcn]
      constructor
      · rcases eq_or_ne t op.instanceId with h | h
        · subst h; simp; ring
        · simp only [if_neg h]; ring
      · rcases eq_or_ne t op.instanceId with h | h
        · subst h; simp; ring
        · simp only [if_neg h]; ring

/-- Number of times operator `t` is associated with chain `c` across a list
of operator groups (occurrences of `t` among a group's operator instance ids
times occurrences of `c` in its chain set, summed over the groups): the
size of the K×M cross product contribution. -/
def crossCount (gs : List OperatorGroup) (c t : String) : Nat :=
  (gs.map (fun g =>
    (g.operators.map SymmetryOperator.instanceId).count t * ((g.asymIds.getD []).count c))).sum

theorem applyGroups_allOps : ∀ (gs : List OperatorGroup) (st : BuildState),
    (applyGroups gs st).allOps
      = st.allOps ++ gs.flatMap (fun g => g.operators.map SymmetryOperator.instanceId) := by
  intro gs
  induction gs with
  | nil => intro st; simp [applyGroups]
  | cons g gs ih =>
    intro st
    rw [applyGroups, ih, applyGroupOps_allOps]
    simp

theorem applyGroups_count : ∀ (gs : List OperatorGroup) (st : BuildState) (c t : String),
    ((alistGetD (applyGroups gs st).opc c).count t
      = (alistGetD st.opc c).count t + crossCount gs c t) ∧
    ((alistGetD (applyGroups gs st).cpo t).count c
      = (alistGetD st.cpo t).count c + crossCount gs c t) := by
  intro gs
  induction gs with
  | nil => intro st c t; simp [applyGroups, crossCount]
  | cons g gs ih =>
    intro st c t
    rw [applyGroups]
    obtain ⟨ih1, ih2⟩ := ih (applyGroupOps g.asymIds g.operators st) c t
    obtain ⟨hg1, hg2⟩ := applyGroupOps_count g.asymIds g.operators st c t
    rw [ih1, hg1, ih2, hg2]
    unfold crossCount
    simp only [List.map_cons, List.sum_cons]
    omega

/-- Claim C3: for every assembly of the model, every chain `c` and every
operator instance id `t`, the built entry realizes the full K×M cross
product: the number of occurrences of `t` in `operatorsPerChain[c]` and of
`c` in `chainsPerOperator[t]` both equal the summed per-group product of
occurrences; and for the concrete single-group assembly of 2 operators
applied to 3 chains, `allOperators` has length 2, each chain's
`operatorsPerChain` list has length 2, and each operator's
`chainsPerOperator` list has length 3. -/
theorem claim_C3 (m : Model) (a : Assembly) (ha : a ∈ modelAssemblies m) (c t : String) :
    (a.id, buildEntry a.operatorGroups) ∈ getChainInstancesInAssemblies m ∧
    (alistGetD (buildEntry a.operatorGroups).operatorsPerChain c).count t
      = crossCount a.operatorGroups c t ∧
    (alistGetD (buildEntry a.operatorGroups).chainsPerOperator t).count c
      = crossCount a.operatorGroups c t ∧
    (buildEntry assemblyOne.operatorGroups).allOperators.length = 2 ∧
    (∀ ch ∈ (["A", "B", "C"] : List String),
      (alistGetD (buildEntry assemblyOne.operatorGroups).operatorsPerChain ch).length = 2) ∧
    (∀ opId ∈ (["ASM-1", "ASM-2"] : List String),
      (alistGetD (buildEntry assemblyOne.operatorGroups).chainsPerOperator opId).length = 3) := by
  obtain ⟨h1, h2⟩ := applyGroups_count a.operatorGroups ⟨[], [], []⟩ c t
  refine ⟨List.mem_map.mpr ⟨a, ha, rfl⟩, ?_, ?_, by decide, by decide, by decide⟩
  · rw [buildEntry]
    simpa [alistGetD, alistGet?_nil] using h1
  · rw [buildEntry]
    simpa [alistGetD, alistGet?_nil] using h2

/-- Witness for C3 at the 2-operator × 3-chain assembly "1". -/
theorem claim_C3_witness :
    (assemblyOne ∈ modelAssemblies modelWithAssemblies) ∧
    ((assemblyOne.id, buildEntry assemblyOne.operatorGroups)
        ∈ getChainInstancesInAssemblies modelWithAssemblies ∧
      (alistGetD (buildEntry assemblyOne.operatorGroups).operatorsPerChain "A").count "ASM-1"
        = crossCount assemblyOne.operatorGroups "A" "ASM-1" ∧
      (alistGetD (buildEntry assemblyOne.operatorGroups).chainsPerOperator "ASM-1").count "A"
        = crossCount assemblyOne.operatorGroups "A" "ASM-1" ∧
      (buildEntry assemblyOne.operatorGroups).allOperators.length = 2 ∧
      (∀ ch ∈ (["A", "B", "C"] : List String),
        (alistGetD (buildEntry assemblyOne.operatorGroups).operatorsPerChain ch).length = 2) ∧
      (∀ opId ∈ (["ASM-1", "ASM-2"] : List String),
        (alistGetD (buildEntry assemblyOne.operatorGroups).chainsPerOperator opId).length = 3)) :=
  ⟨by decide, claim_C3 modelWithAssemblies assemblyOne (by decide) "A" "ASM-1"⟩

/-! ### Claim C9 -/

theorem mem_uniqueAux : ∀ (l seen : List String) (x : String),
    x ∈ uniqueAux l seen ↔ (x ∈ l ∧ x ∉ seen) := by
  intro l
  induction l with
  | nil => intro seen x; simp [uniqueAux]
  | cons y ys ih =>
    intro seen x
    by_cases hy : y ∈ seen
    · rw [uniqueAux, if_pos hy, ih]
      constructor
      · rintro ⟨hx, hs⟩
        exact ⟨List.mem_cons_of_mem y hx, hs⟩
      · rintro ⟨hx, hs⟩
        rcases List.mem_cons.mp hx with rfl | hx
        · exact absurd hy hs
        · exact ⟨hx, hs⟩
    · rw [uniqueAux, if_neg hy]
      constructor
      · intro hx
        rcases List.mem_cons.mp hx with rfl | hx
        · exact ⟨List.mem_cons_self x ys, hy⟩
        · obtain ⟨h1, h2⟩ := (ih (y :: seen) x).mp hx
          exact ⟨List.mem_cons_of_mem y h1, fun hs => h2 (List.mem_cons_of_mem y hs)⟩
      · rintro ⟨hx, hs⟩
        rcases List.mem_cons.mp hx with rfl | hx
        · exact List.mem_cons_self x _
        · by_cases hxy : x = y
          · subst hxy; exact List.mem_cons_self x _
          · exact List.mem_cons_of_mem y ((ih (y :: seen) x).mpr
              ⟨hx, fun hh => (List.mem_cons.mp hh).elim hxy hs⟩)

theorem nodup_uniqueAux : ∀ (l seen : List String), (uniqueAux l seen).Nodup := by
  intro l
  induction l with
  | nil => intro seen; simp [uniqueAux]
  | cons y ys ih =>
    intro seen
    by_cases hy : y ∈ seen
    · rw [uniqueAux, if_pos hy]; exact ih seen
    · rw [uniqueAux, if_neg hy]
      refine List.nodup_cons.mpr ⟨?_, ih (y :: seen)⟩
      intro hmem
      exact ((mem_uniqueAux ys (y :: seen) y).mp hmem).2 (List.mem_cons_self y seen)

theorem mem_unique (l : List String) (x : String) : x ∈ unique l ↔ x ∈ l := by
  rw [unique, mem_uniqueAux]
  simp

theorem applyGroupOps_pair_congr (ai : Option (List String)) :
    ∀ (ops : List SymmetryOperator) (st1 st2 : BuildState),
      st1.opc = st2.opc → st1.cpo = st2.cpo →
      (applyGroupOps ai ops st1).opc = (applyGroupOps ai ops st2).opc ∧
      (applyGroupOps ai ops st1).cpo = (applyGroupOps ai ops st2).cpo := by
  intro ops
  induction ops with
  | nil => intro st1 st2 h1 h2; exact ⟨h1, h2⟩
  | cons op ops ih =>
    intro st1 st2 h1 h2
    cases ai with
    | none =>
      rw [applyGroupOps, applyGroupOps]
      exact ih _ _ h1 h2
    | some cs =>
      rw [applyGroupOps, applyGroupOps]
      exact ih _ _ (by rw [h1, h2]) (by rw [h1, h2])

theorem applyGroups_filter_pair :
    ∀ (gs : List OperatorGroup) (st1 st2 : BuildState),
      st1.opc = st2.opc → st1.cpo = st2.cpo →
      (applyGroups (gs.filter (fun g => g.asymIds.isSome)) st1).opc
        = (applyGroups gs st2).opc ∧
      (applyGroups (gs.filter (fun g => g.asymIds.isSome)) st1).cpo
        = (applyGroups gs st2).cpo := by
  intro gs
  induction gs with
  | nil => intro st1 st2 h1 h2; exact ⟨h1, h2⟩
  | cons g gs ih =>
    intro st1 st2 h1 h2
    cases hg : g.asymIds with
    | none =>
      have hfilt : (g :: gs).filter (fun g => g.asymIds.isSome)
          = gs.filter (fun g => g.asymIds.isSome) := by
        simp [List.filter_cons, hg]
      rw [hfilt, applyGroups]
      obtain ⟨hn1, hn2⟩ := applyGroupOps_none_state g.operators st2
      rw [hg] at *
      exact ih st1 _ (h1.trans hn1.symm) (h2.trans hn2.symm)
    | some cs =>
      have hfilt : (g :: gs).filter (fun g => g.asymIds.isSome)
          = g :: gs.filter (fun g => g.asymIds.isSome) := by
        simp [List.filter_cons, hg]
      rw [hfilt, applyGroups, applyGroups]
      obtain ⟨hc1, hc2⟩ := applyGroupOps_pair_congr g.asymIds g.operators st1 st2 h1 h2
      exact ih _ _ hc1 hc2

/-- Claim C9: for every assembly, `allOperators` is the deduplicated (first
occurrence kept, first-seen order preserved) concatenation of every operator
instance id across all operator groups — including groups without a chain
set — while the per-chain indices are unchanged if the chainless groups are
removed (they contribute no entries to `operatorsPerChain` or
`chainsPerOperator`). -/
theorem claim_C9 (m : Model) (a : Assembly) (ha : a ∈ modelAssemblies m) :
    (a.id, buildEntry a.operatorGroups) ∈ getChainInstancesInAssemblies m ∧
    (buildEntry a.operatorGroups).allOperators
      = unique (a.operatorGroups.flatMap (fun g => g.operators.map SymmetryOperator.instanceId)) ∧
    (∀ x, x ∈ (buildEntry a.operatorGroups).allOperators
      ↔ x ∈ a.operatorGroups.flatMap (fun g => g.operators.map SymmetryOperator.instanceId)) ∧
    (buildEntry a.operatorGroups).allOperators.Nodup ∧
    (buildEntry a.operatorGroups).operatorsPerChain
      = (buildEntry (a.operatorGroups.filter (fun g => g.asymIds.isSome))).operatorsPerChain ∧
    (buildEntry a.operatorGroups).chainsPerOperator
      = (buildEntry (a.operatorGroups.filter (fun g => g.asymIds.isSome))).chainsPerOperator := by
  have hall : (buildEntry a.operatorGroups).allOperators
      = unique (a.operatorGroups.flatMap (fun g => g.operators.map SymmetryOperator.instanceId)) := by
    rw [buildEntry]
    rw [applyGroups_allOps]
    simp
  obtain ⟨hf1, hf2⟩ := applyGroups_filter_pair a.operatorGroups ⟨[], [], []⟩ ⟨[], [], []⟩ rfl rfl
  refine ⟨List.mem_map.mpr ⟨a, ha, rfl⟩, hall, ?_, ?_, ?_, ?_⟩
  · intro x
    rw [hall, mem_unique]
  · rw [hall]; exact nodup_uniqueAux _ _
  · rw [buildEntry, buildEntry]
    exact hf1.symm
  · rw [buildEntry, buildEntry]
    exact hf2.symm

/-- Witness for C9 at assembly "2", which has a chainless operator group. -/
theorem claim_C9_witness :
    (assemblyTwo ∈ modelAssemblies modelWithAssemblies) ∧
    ((assemblyTwo.id, buildEntry assemblyTwo.operatorGroups)
        ∈ getChainInstancesInAssemblies modelWithAssemblies ∧
      (buildEntry assemblyTwo.operatorGroups).allOperators
        = unique (assemblyTwo.operatorGroups.flatMap
            (fun g => g.operators.map SymmetryOperator.instanceId)) ∧
      (∀ x, x ∈ (buildEntry assemblyTwo.operatorGroups).allOperators
        ↔ x ∈ assemblyTwo.operatorGroups.flatMap
            (fun g => g.operators.map SymmetryOperator.instanceId)) ∧
      (buildEntry assemblyTwo.operatorGroups).allOperators.Nodup ∧
      (buildEntry assemblyTwo.operatorGroups).operatorsPerChain
        = (buildEntry (assemblyTwo.operatorGroups.filter
            (fun g => g.asymIds.isSome))).operatorsPerChain ∧
      (buildEntry assemblyTwo.operatorGroups).chainsPerOperator
        = (buildEntry (assemblyTwo.operatorGroups.filter
            (fun g => g.asymIds.isSome))).chainsPerOperator) :=
  ⟨by decide, claim_C9 modelWithAssemblies assemblyTwo (by decide)⟩

/-! ### Claim C10 -/

theorem alistGet?_push_ne (k v k' : String) (m : List (String × List String)) (h : k' ≠ k) :
    alistGet? (alistPush k v m) k' = alistGet? m k' := by
  rw [alistGet?_push, if_neg h]

theorem applyOpChains_cpo_pres (instId : String) :
    ∀ (cs : List String) (opc cpo : List (String × List String)) (t : String), t ≠ instId →
      alistGet? (applyOpChains instId cs (opc, cpo)).2 t = alistGet? cpo t := by
  intro cs
  induction cs with
  | nil => intro opc cpo t _; rfl
  | cons c0 cs ih =>
    intro opc cpo t ht
    rw [applyOpChains, ih _ _ t ht, alistGet?_push_ne _ _ _ _ ht]

theorem applyGroupOps_cpo_pres (ai : Option (List String)) :
    ∀ (ops : List SymmetryOperator) (st : BuildState) (t : String),
      (ai.isSome → ∀ op ∈ ops, op.instanceId ≠ t) →
      alistGet? (applyGroupOps ai ops st).cpo t = alistGet? st.cpo t := by
  intro ops
  induction ops with
  | nil => intro st t _; cases ai <;> rfl
  | cons op ops ih =>
    intro st t hops
    cases ai with
    | none =>
      rw [applyGroupOps]
      exact ih _ t (fun hs => absurd hs (by simp))
    | some cs =>
      rw [applyGroupOps]
      have hop : op.instanceId ≠ t := hops rfl op (List.mem_cons_self op ops)
      rw [ih _ t (fun _ op' hop' => hops rfl op' (List.mem_cons_of_mem op hop'))]
      exact applyOpChains_cpo_pres op.instanceId cs st.opc st.cpo t (Ne.symm hop)

theorem applyGroups_cpo_pres :
    ∀ (gs : List OperatorGroup) (st : BuildState) (t : String),
      (∀ g ∈ gs, g.asymIds.isSome → ∀ op ∈ g.operators, op.instanceId ≠ t) →
      alistGet? (applyGroups gs st).cpo t = alistGet? st.cpo t := by
  intro gs
  induction gs with
  | nil => intro st t _; rfl
  | cons g gs ih =>
    intro st t hgs
    rw [applyGroups]
    rw [ih _ t (fun g' hg' => hgs g' (List.mem_cons_of_mem g hg'))]
    exact applyGroupOps_cpo_pres g.asymIds g.operators st t
      (fun hs => hgs g (List.mem_cons_self g gs) hs)

theorem listEntityInstancesLoop_fail (entityChains : List String)
    (cpo : List (String × List String)) :
    ∀ (ops : List String) (t : String), t ∈ ops → alistGet? cpo t = none →
      listEntityInstancesLoop entityChains cpo ops = none := by
  intro ops
  induction ops with
  | nil => intro t ht _; exact absurd ht (List.not_mem_nil t)
  | cons t0 rest ih =>
    intro t ht hnone
    rcases List.mem_cons.mp ht with rfl | ht
    · rw [listEntityInstancesLoop, hnone]
    · rw [listEntityInstancesLoop]
      cases h0 : alistGet? cpo t0 with
      | none => rfl
      | some chains => rw [ih t ht hnone]

/-- Claim C10: if an operator group of an assembly specifies no chain set,
each of its operators (whose instance id does not recur in a chain-bearing
group — instance ids are globally unique per §3) appears in `allOperators`
yet has no `chainsPerOperator` entry, and consequently
`listEntityInstancesInAssembly` on that assembly's entry fails (iterates an
undefined entry, embedded `none`) for every entity instead of returning a
list. -/
theorem claim_C10 (m : Model) (a : Assembly) (g : OperatorGroup) (op : SymmetryOperator)
    (ha : a ∈ modelAssemblies m) (hg : g ∈ a.operatorGroups) (hnone : g.asymIds = none)
    (hop : op ∈ g.operators)
    (huniq : ∀ g' ∈ a.operatorGroups, g'.asymIds.isSome →
      ∀ op' ∈ g'.operators, op'.instanceId ≠ op.instanceId) :
    (a.id, buildEntry a.operatorGroups) ∈ getChainInstancesInAssemblies m ∧
    op.instanceId ∈ (buildEntry a.operatorGroups).allOperators ∧
    alistGet? (buildEntry a.operatorGroups).chainsPerOperator op.instanceId = none ∧
    ∀ entity, listEntityInstancesInAssembly entity (buildEntry a.operatorGroups) = none := by
  have hmemAll : op.instanceId ∈ (buildEntry a.operatorGroups).allOperators := by
    rw [buildEntry]
    show op.instanceId ∈ unique _
    rw [mem_unique, applyGroups_allOps]
    simp only [List.nil_append, List.mem_flatMap]
    exact ⟨g, hg, List.mem_map.mpr ⟨op, hop, rfl⟩⟩
  have hcpo : alistGet? (buildEntry a.operatorGroups).chainsPerOperator op.instanceId = none := by
    rw [buildEntry]
    show alistGet? (applyGroups a.operatorGroups ⟨[], [], []⟩).cpo op.instanceId = none
    rw [applyGroups_cpo_pres a.operatorGroups ⟨[], [], []⟩ op.instanceId huniq]
    rfl
  refine ⟨List.mem_map.mpr ⟨a, ha, rfl⟩, hmemAll, hcpo, ?_⟩
  intro entity
  exact listEntityInstancesLoop_fail entity.chains _ _ op.instanceId hmemAll hcpo

/-- Witness for C10 at assembly "2": operator "OP-X" sits in a chainless
group, so the entity-instance resolver fails on that assembly's entry. -/
theorem claim_C10_witness :
    (assemblyTwo ∈ modelAssemblies modelWithAssemblies) ∧
    ({ asymIds := none, operators := [{ instanceId := "OP-X" }] } ∈ assemblyTwo.operatorGroups) ∧
    (({ asymIds := none, operators := [{ instanceId := "OP-X" }] } : OperatorGroup).asymIds
      = none) ∧
    (({ instanceId := "OP-X" } : SymmetryOperator)
      ∈ ({ asymIds := none, operators := [{ instanceId := "OP-X" }] } : OperatorGroup).operators) ∧
    (∀ g2 ∈ assemblyTwo.operatorGroups, g2.asymIds.isSome →
      ∀ op2 ∈ g2.operators, op2.instanceId ≠ "OP-X") ∧
    ((assemblyTwo.id, buildEntry assemblyTwo.operatorGroups)
        ∈ getChainInstancesInAssemblies modelWithAssemblies ∧
      "OP-X" ∈ (buildEntry assemblyTwo.operatorGroups).allOperators ∧
      alistGet? (buildEntry assemblyTwo.operatorGroups).chainsPerOperator "OP-X" = none ∧
      ∀ entity, listEntityInstancesInAssembly entity (buildEntry assemblyTwo.operatorGroups)
        = none) :=
  ⟨by decide, by decide, rfl, by decide, by decide,
    claim_C10 modelWithAssemblies assemblyTwo
      { asymIds := none, operators := [{ instanceId := "OP-X" }] }
      { instanceId := "OP-X" }
      (by decide) (by decide) rfl (by decide) (by decide)⟩

/-! ### Claim C8 -/

/-- Counterexample to claim C8 as stated: for an assembly entry built from a
single chainless operator group, none of the entity's chains appear in any
`chainsPerOperator` list (there are none), yet `listEntityInstancesInAssembly`
does not return an empty list — it fails (the loop iterates the undefined
entry `chainsPerOperator["OP-1"]`), embedded as `none`. -/
def chainlessOnlyGroups : List OperatorGroup :=
  [{ asymIds := none, operators := [{ instanceId := "OP-1" }] }]

theorem claim_C8_counterexample :
    (∀ p ∈ (buildEntry chainlessOnlyGroups).chainsPerOperator,
      ∀ c ∈ (["A"] : List String), c ∉ p.2) ∧
    listEntityInstancesInAssembly { id := "1", chains := ["A"] }
      (buildEntry chainlessOnlyGroups)
      ≠ some [] := by
  decide

theorem foldl_push_eq_map {α β : Type} (f : α → β) :
    ∀ (l : List α) (acc : List β),
      l.foldl (fun out c => out ++ [f c]) acc = acc ++ l.map f := by
  intro l
  induction l with
  | nil => intro acc; simp
  | cons c cs ih => intro acc; rw [List.foldl_cons, ih]; simp

theorem listEntityInstancesLoop_empty (entityChains : List String)
    (cpo : List (String × List String))
    (hnone : ∀ p ∈ cpo, ∀ c ∈ entityChains, c ∉ p.2) :
    ∀ (ops : List String), (∀ t ∈ ops, (alistGet? cpo t).isSome) →
      listEntityInstancesLoop entityChains cpo ops = some [] := by
  intro ops
  induction ops with
  | nil => intro _; rfl
  | cons t0 rest ih =>
    intro htotal
    cases h0 : alistGet? cpo t0 with
    | none =>
      have := htotal t0 (List.mem_cons_self t0 rest)
      rw [h0] at this
      exact absurd this (by simp)
    | some chains =>
      have hstep : listEntityInstancesLoop entityChains cpo (t0 :: rest)
          = match listEntityInstancesLoop entityChains cpo rest with
            | none => none
            | some out => some ((chains.filter (fun c => entityChains.contains c)).map
                (fun c => { labelAsymId := c, instanceId := some t0 }) ++ out) := by
        rw [listEntityInstancesLoop, h0]
      rw [hstep, ih (fun t ht => htotal t (List.mem_cons_of_mem t0 ht))]
      have hchains : ∃ p ∈ cpo, p.2 = chains := by
        unfold alistGet? at h0
        cases hf : cpo.find? (fun p => p.1 == t0) with
        | none => rw [hf] at h0; simp at h0
        | some p =>
          rw [hf] at h0
          simp only [Option.map_some', Option.some.injEq] at h0
          exact ⟨p, List.mem_of_find?_eq_some hf, h0⟩
      obtain ⟨p, hp, hpc⟩ := hchains
      have hfilter : chains.filter (fun c => entityChains.contains c) = [] := by
        rw [List.filter_eq_nil_iff]
        intro c hc
        have hcm : c ∉ entityChains := by
          intro hmem
          exact hnone p hp c hmem (hpc ▸ hc)
        simpa using hcm
      rw [hfilter]
      rfl

/-- Claim C8 (amended): `listEntityInstancesInModel` emits exactly one entry
per chain of the entity, in the chain list's order, each with a null
(`none`) instance id; and `listEntityInstancesInAssembly` returns the empty
list whenever every operator of `allOperators` has a `chainsPerOperator`
entry and none of the entity's chains appear in those lists (without the
totality condition the function fails instead of returning `[]` — see the
counterexample and claim C10). -/
theorem claim_C8 (entity : EntityRecord) (cii : ChainInstancesEntry)
    (htotal : ∀ t ∈ cii.allOperators, (alistGet? cii.chainsPerOperator t).isSome)
    (hnone : ∀ p ∈ cii.chainsPerOperator, ∀ c ∈ entity.chains, c ∉ p.2) :
    listEntityInstancesInAssembly entity cii = some [] ∧
    listEntityInstancesInModel entity
      = entity.chains.map (fun c => { labelAsymId := c, instanceId := none }) := by
  constructor
  · exact listEntityInstancesLoop_empty entity.chains cii.chainsPerOperator hnone
      cii.allOperators htotal
  · rw [listEntityInstancesInModel, foldl_push_eq_map]
    simp

/-- Witness for C8 (amended): an entity owning only chain "Z", absent from
assembly "1" (which covers chains A, B, C with total per-chain indices). -/
theorem claim_C8_witness :
    (∀ t ∈ (buildEntry assemblyOne.operatorGroups).allOperators,
      (alistGet? (buildEntry assemblyOne.operatorGroups).chainsPerOperator t).isSome) ∧
    (∀ p ∈ (buildEntry assemblyOne.operatorGroups).chainsPerOperator,
      ∀ c ∈ ({ id := "9", chains := ["Z"] } : EntityRecord).chains, c ∉ p.2) ∧
    (listEntityInstancesInAssembly { id := "9", chains := ["Z"] }
        (buildEntry assemblyOne.operatorGroups) = some [] ∧
      listEntityInstancesInModel { id := "9", chains := ["Z"] }
        = (({ id := "9", chains := ["Z"] } : EntityRecord)).chains.map
            (fun c => { labelAsymId := c, instanceId := none })) :=
  ⟨by decide, by decide,
    claim_C8 { id := "9", chains := ["Z"] } (buildEntry assemblyOne.operatorGroups)
      (by decide) (by decide)⟩

/-! ### Claims C4 and C7 -/

/-- Total number of stored chunks across a record list. -/
def sumChunks (recs : List DomainRecord) : Nat :=
  (recs.map (fun r => r.chunks.length)).sum

/-- A chunk whose bounds, when both defined, are in order. -/
def chunkRangeOk (c : DomainChunkRecord) : Prop :=
  ∀ a b : Int, c.startResidue = some a → c.endResidue = some b → a ≤ b

theorem normalizeRange_ok (s e : Option Int) :
    ∀ a b : Int, (normalizeRange s e).1 = some a → (normalizeRange s e).2 = some b → a ≤ b := by
  intro a b h1 h2
  cases s with
  | none => simp [normalizeRange] at h1
  | some a0 =>
    cases e with
    | none => simp [normalizeRange] at h2
    | some b0 =>
      simp only [normalizeRange] at h1 h2
      split_ifs at h1 h2 with h
      · simp only [Option.some.injEq] at h1 h2
        omega
      · simp only [Option.some.injEq] at h1 h2
        omega

theorem mkChunk_rangeOk (m : MappingRecord) (seg : Nat) : chunkRangeOk (mkChunk m seg) :=
  fun a b h1 h2 => normalizeRange_ok m.start m.endRes a b h1 h2

theorem appendChunk_map_id (domainId : String) (c : DomainChunkRecord) :
    ∀ recs, (appendChunkToDomain domainId c recs).map (fun r => r.id)
      = recs.map (fun r => r.id) := by
  intro recs
  induction recs with
  | nil => rfl
  | cons r rs ih =>
    rw [appendChunkToDomain]
    by_cases h : r.id == domainId
    · rw [if_pos h]; simp
    · rw [if_neg h]; simpa using ih

theorem appendChunk_spec (domainId : String) (c : DomainChunkRecord) :
    ∀ (recs : List DomainRecord) (d : DomainRecord),
      recs.find? (fun r => r.id == domainId) = some d →
      ∀ x ∈ appendChunkToDomain domainId c recs,
        x ∈ recs ∨ x = { d with chunks := d.chunks ++ [c] } := by
  intro recs
  induction recs with
  | nil => intro d hd; cases hd
  | cons r rs ih =>
    intro d hd x hx
    by_cases h : r.id == domainId
    · simp only [List.find?_cons, h] at hd
      rw [Option.some.injEq] at hd
      subst hd
      rw [appendChunkToDomain, if_pos h] at hx
      rcases List.mem_cons.mp hx with rfl | hx
      · exact Or.inr rfl
      · exact Or.inl (List.mem_cons_of_mem r hx)
    · have hb : (r.id == domainId) = false := by simpa using h
      simp only [List.find?_cons, hb] at hd
      rw [appendChunkToDomain, if_neg h] at hx
      rcases List.mem_cons.mp hx with rfl | hx
      · exact Or.inl (List.mem_cons_self x rs)
      · rcases ih d hd x hx with h' | h'
        · exact Or.inl (List.mem_cons_of_mem r h')
        · exact Or.inr h'

theorem appendChunk_sum (domainId : String) (c : DomainChunkRecord) :
    ∀ recs, (recs.find? (fun r => r.id == domainId)).isSome →
      sumChunks (appendChunkToDomain domainId c recs) = sumChunks recs + 1 := by
  intro recs
  induction recs with
  | nil => intro h; simp at h
  | cons r rs ih =>
    intro h
    by_cases hr : r.id == domainId
    · rw [appendChunkToDomain, if_pos hr]
      simp [sumChunks]
      omega
    · rw [appendChunkToDomain, if_neg hr]
      have hb : (r.id == domainId) = false := by simpa using hr
      simp only [List.find?_cons, hb] at h
      have := ih h
      simp only [sumChunks, List.map_cons, List.sum_cons] at *
      omega

theorem range'_one_concat (n : Nat) : List.range' 1 (n + 1) = List.range' 1 n ++ [n + 1] := by
  have h := @List.range'_concat 1 1 n
  simpa [Nat.add_comm] using h

/-- Invariants maintained by the `extractDomainMappings` fold: the stored
domain ids are pairwise distinct, every record's chunk segments are exactly
1, 2, ..., n in order, every stored chunk has an ordered range, and each
consumed mapping record contributes exactly one chunk. -/
theorem extractLoop_spec (source family familyName : String) :
    ∀ (ms : List MappingRecord) (recs : List DomainRecord) (dc : List (String × Nat)),
      ((recs.map (fun r => r.id)).Nodup) →
      (∀ r ∈ recs, r.chunks.map (fun c => c.segment) = List.range' 1 r.chunks.length) →
      (∀ r ∈ recs, ∀ c ∈ r.chunks, chunkRangeOk c) →
      ((extractLoop source family familyName ms recs dc).map (fun r => r.id)).Nodup ∧
      (∀ r ∈ extractLoop source family familyName ms recs dc,
        r.chunks.map (fun c => c.segment) = List.range' 1 r.chunks.length) ∧
      (∀ r ∈ extractLoop source family familyName ms recs dc, ∀ c ∈ r.chunks, chunkRangeOk c) ∧
      sumChunks (extractLoop source family familyName ms recs dc)
        = sumChunks recs + ms.length := by
  intro ms
  induction ms with
  | nil =>
    intro recs dc h1 h2 h3
    exact ⟨h1, h2, h3, by simp [extractLoop]⟩
  | cons m ms ih =>
    intro recs dc h1 h2 h3
    rw [extractLoop]
    set domainId := (resolveDomainId family dc m).1 with hdid
    cases hex : recs.find? (fun r => r.id == domainId) with
    | none =>
      have hstep : extractStepRecs source family familyName domainId m recs
          = recs ++ [DomainRecord.mk domainId source family familyName [mkChunk m 1]] := by
        rw [extractStepRecs, hex]
      rw [hstep]
      have hnotmem : domainId ∉ recs.map (fun r => r.id) := by
        intro hmem
        obtain ⟨r, hr, hrid⟩ := List.mem_map.mp hmem
        have := List.find?_eq_none.mp hex r hr
        simp [hrid] at this
      refine ih _ _ ?_ ?_ ?_ |>.imp id (fun h => h.imp id (fun h => h.imp id ?_))
      · rw [List.map_append]
        simp only [List.map_cons, List.map_nil]
        rw [List.nodup_append]
        refine ⟨h1, List.nodup_singleton _, ?_⟩
        intro a ha hb
        rw [List.mem_singleton] at hb
        subst hb
        exact hnotmem ha
      · intro r hr
        rcases List.mem_append.mp hr with hr | hr
        · exact h2 r hr
        · have hre := List.mem_singleton.mp hr
          subst hre
          rfl
      · intro r hr c hc
        rcases List.mem_append.mp hr with hr | hr
        · exact h3 r hr c hc
        · have hre := List.mem_singleton.mp hr
          subst hre
          have hce : c = mkChunk m 1 := List.mem_singleton.mp hc
          subst hce
          exact mkChunk_rangeOk m 1
      · intro hsum
        rw [hsum]
        simp only [sumChunks, List.map_append, List.map_cons, List.map_nil, List.sum_append]
        simp [List.length_cons]
        omega
    | some d =>
      have hstep : extractStepRecs source family familyName domainId m recs
          = appendChunkToDomain domainId (mkChunk m (d.chunks.length + 1)) recs := by
        rw [extractStepRecs, hex]
      rw [hstep]
      have hmem : ∀ x ∈ appendChunkToDomain domainId (mkChunk m (d.chunks.length + 1)) recs,
          x ∈ recs ∨ x = { d with chunks := d.chunks ++ [mkChunk m (d.chunks.length + 1)] } :=
        appendChunk_spec domainId _ recs d hex
      refine ih _ _ ?_ ?_ ?_ |>.imp id (fun h => h.imp id (fun h => h.imp id ?_))
      · rw [appendChunk_map_id]
        exact h1
      · intro r hr
        rcases hmem r hr with hr' | hr'
        · exact h2 r hr'
        · subst hr'
          simp only [List.map_append, List.length_append]
          rw [h2 d (List.mem_of_find?_eq_some hex)]
          simp [mkChunk, range'_one_concat]
      · intro r hr c hc
        rcases hmem r hr with hr' | hr'
        · exact h3 r hr' c hc
        · subst hr'
          simp only at hc
          rcases List.mem_append.mp hc with hc' | hc'
          · exact h3 d (List.mem_of_find?_eq_some hex) c hc'
          · rw [List.mem_singleton.mp hc']
            exact mkChunk_rangeOk m _
      · intro hsum
        rw [hsum, appendChunk_sum domainId _ recs (by rw [hex]; rfl)]
        simp [List.length_cons]
        omega

theorem charListLt_iff : ∀ (l₁ l₂ : List Char), charListLt l₁ l₂ = true ↔ l₁ < l₂ := by
  intro l₁
  induction l₁ with
  | nil =>
    intro l₂
    cases l₂ with
    | nil =>
      simp only [charListLt, Bool.false_eq_true, false_iff]
      intro h
      cases h
    | cons b bs =>
      simp only [charListLt, true_iff]
      exact List.Lex.nil
  | cons a as ih =>
    intro l₂
    cases l₂ with
    | nil =>
      simp only [charListLt, Bool.false_eq_true, false_iff]
      intro h
      cases h
    | cons b bs =>
      rw [charListLt]
      by_cases hab : a < b
      · simp only [if_pos hab, true_iff]
        exact List.Lex.rel hab
      · rw [if_neg hab]
        by_cases hba : b < a
        · simp only [if_pos hba, Bool.false_eq_true, false_iff]
          intro h
          cases h with
          | cons h2 => exact absurd hba (lt_irrefl a)
          | rel h2 => exact hab h2
        · have heq : a = b := le_antisymm (not_lt.mp hba) (not_lt.mp hab)
          subst heq
          rw [if_neg hab, ih bs]
          constructor
          · intro h
            exact List.Lex.cons h
          · intro h
            cases h with
            | cons h2 => exact h2
            | rel h2 => exact absurd h2 hab

theorem strLtB_iff (a b : String) : strLtB a b = true ↔ a < b := by
  rw [String.lt_iff_toList_lt]
  exact charListLt_iff a.data b.data

theorem strLtB_false_iff (a b : String) : strLtB a b = false ↔ b ≤ a := by
  rw [← not_lt, ← strLtB_iff]
  constructor
  · intro h hc
    rw [h] at hc
    cases hc
  · intro h
    cases hb : strLtB a b
    · rfl
    · exact absurd hb h

theorem insertById_perm (r : DomainRecord) :
    ∀ l, (insertById r l).Perm (r :: l) := by
  intro l
  induction l with
  | nil => exact List.Perm.refl _
  | cons r' rs ih =>
    rw [insertById]
    by_cases h : strLtB r'.id r.id
    · rw [if_pos h]
      exact (ih.cons r').trans (List.Perm.swap r r' rs)
    · rw [if_neg h]

theorem sortById_perm : ∀ l, (sortById l).Perm l := by
  intro l
  induction l with
  | nil => exact List.Perm.refl _
  | cons r rs ih =>
    rw [sortById]
    exact (insertById_perm r (sortById rs)).trans (ih.cons r)

theorem insertById_sorted (r : DomainRecord) :
    ∀ l, l.Pairwise (fun a b => a.id ≤ b.id) →
      (insertById r l).Pairwise (fun a b => a.id ≤ b.id) := by
  intro l
  induction l with
  | nil => intro _; exact List.pairwise_singleton _ r
  | cons r2 rs ih =>
    intro hp
    rw [List.pairwise_cons] at hp
    obtain ⟨hp1, hp2⟩ := hp
    rw [insertById]
    by_cases h : strLtB r2.id r.id
    · rw [if_pos h, List.pairwise_cons]
      have hlt : r2.id < r.id := (strLtB_iff r2.id r.id).mp h
      refine ⟨?_, ih hp2⟩
      intro b hb
      have hb2 := (insertById_perm r rs).mem_iff.mp hb
      rcases List.mem_cons.mp hb2 with rfl | hb2
      · exact le_of_lt hlt
      · exact hp1 b hb2
    · have hle : r.id ≤ r2.id := (strLtB_false_iff r2.id r.id).mp (by simpa using h)
      rw [if_neg h, List.pairwise_cons]
      refine ⟨?_, List.pairwise_cons.mpr ⟨hp1, hp2⟩⟩
      intro b hb
      rcases List.mem_cons.mp hb with rfl | hb
      · exact hle
      · exact hle.trans (hp1 b hb)

theorem sortById_sorted : ∀ l, (sortById l).Pairwise (fun a b => a.id ≤ b.id) := by
  intro l
  induction l with
  | nil => exact List.Pairwise.nil
  | cons r rs ih => exact insertById_sorted r (sortById rs) ih

/-- Claim C4: `extractDomainMappings` folds all mapping records resolving to
one domain id into a single `DomainRecord` (ids of the output are pairwise
distinct and the total chunk count equals the number of input records),
chunks carry segment numbers 1, 2, ..., n in append order, and the output is
sorted by domain id in ascending (strict) lexicographic order. -/
theorem claim_C4 (mappings : List MappingRecord) (source family familyName : String) :
    ((extractDomainMappings mappings source family familyName).map (fun r => r.id)).Nodup ∧
    (∀ r ∈ extractDomainMappings mappings source family familyName,
      r.chunks.map (fun c => c.segment) = List.range' 1 r.chunks.length) ∧
    sumChunks (extractDomainMappings mappings source family familyName) = mappings.length ∧
    List.Pairwise (fun a b => a.id < b.id)
      (extractDomainMappings mappings source family familyName) := by
  obtain ⟨hn, hs, _, hsum⟩ :=
    extractLoop_spec source family familyName mappings [] [] (by simp) (by simp) (by simp)
  simp only [extractDomainMappings]
  set L := extractLoop source family familyName mappings [] [] with hL
  have hperm : (sortById L).Perm L := sortById_perm L
  have hnodup : ((sortById L).map (fun r => r.id)).Nodup :=
    (hperm.map (fun r => r.id)).nodup_iff.mpr hn
  refine ⟨hnodup, ?_, ?_, ?_⟩
  · intro r hrm
    exact hs r (hperm.mem_iff.mp hrm)
  · have hsc : sumChunks (sortById L) = sumChunks L := by
      unfold sumChunks
      exact (hperm.map (fun r => r.chunks.length)).sum_eq
    rw [hsc, hsum]
    simp [sumChunks]
  · have hle := sortById_sorted L
    have hne : (sortById L).Pairwise (fun a b => a.id ≠ b.id) :=
      List.pairwise_map.mp hnodup
    exact (hle.and hne).imp (fun h => lt_of_le_of_ne h.1 h.2)

/-- Witness mapping records: two records sharing domain id "d1" on the same
chain, one identifier-less record, and one with inverted bounds 50/10. -/
def mapD1a : MappingRecord :=
  { domain := some "d1", scop_id := none, entity_id := 1, struct_asym_id := "A",
    chain_id := "A", start := some 1, endRes := some 20 }

def mapD1b : MappingRecord :=
  { domain := some "d1", scop_id := none, entity_id := 1, struct_asym_id := "A",
    chain_id := "A", start := some 30, endRes := some 40 }

def mapAdhoc : MappingRecord :=
  { domain := none, scop_id := none, entity_id := 2, struct_asym_id := "B",
    chain_id := "B", start := none, endRes := some 7 }

def mapInverted : MappingRecord :=
  { domain := some "d9", scop_id := none, entity_id := 2, struct_asym_id := "B",
    chain_id := "B", start := some 50, endRes := some 10 }

/-- Witness for C4 at a concrete four-record input, together with the fully
evaluated result: "d1" holds two chunks with segments 1 and 2 and the output
is id-sorted. -/
theorem claim_C4_witness :
    ((extractDomainMappings [mapD1a, mapInverted, mapD1b, mapAdhoc] "CATH" "F" "FN").map
        (fun r => (r.id, r.chunks.map (fun c => c.segment)))
      = [("F_B", [1]), ("d1", [1, 2]), ("d9", [1])]) ∧
    (((extractDomainMappings [mapD1a, mapInverted, mapD1b, mapAdhoc] "CATH" "F" "FN").map
        (fun r => r.id)).Nodup ∧
      (∀ r ∈ extractDomainMappings [mapD1a, mapInverted, mapD1b, mapAdhoc] "CATH" "F" "FN",
        r.chunks.map (fun c => c.segment) = List.range' 1 r.chunks.length) ∧
      sumChunks (extractDomainMappings [mapD1a, mapInverted, mapD1b, mapAdhoc] "CATH" "F" "FN")
        = [mapD1a, mapInverted, mapD1b, mapAdhoc].length ∧
      List.Pairwise (fun a b => a.id < b.id)
        (extractDomainMappings [mapD1a, mapInverted, mapD1b, mapAdhoc] "CATH" "F" "FN")) :=
  ⟨by decide, claim_C4 [mapD1a, mapInverted, mapD1b, mapAdhoc] "CATH" "F" "FN"⟩

/-- Claim C7: the range normalization of `extractDomainMappings` swaps a
defined, inverted start/end pair, keeps any other pair unchanged, and as
a consequence every stored chunk with both bounds defined satisfies
startResidue ≤ endResidue. -/
theorem claim_C7 (mappings : List MappingRecord) (source family familyName : String) :
    (∀ a b : Int, b < a → normalizeRange (some a) (some b) = (some b, some a)) ∧
    (∀ s e : Option Int, (∀ a b : Int, s = some a → e = some b → a ≤ b) →
      normalizeRange s e = (s, e)) ∧
    (∀ r ∈ extractDomainMappings mappings source family familyName, ∀ c ∈ r.chunks,
      ∀ a b : Int, c.startResidue = some a → c.endResidue = some b → a ≤ b) := by
  refine ⟨?_, ?_, ?_⟩
  · intro a b h
    simp [normalizeRange, h]
  · intro s e h
    cases s with
    | none => rfl
    | some a0 =>
      cases e with
      | none => rfl
      | some b0 =>
        have hab := h a0 b0 rfl rfl
        simp [normalizeRange, not_lt.mpr hab]
  · obtain ⟨_, _, hr, _⟩ :=
      extractLoop_spec source family familyName mappings [] [] (by simp) (by simp) (by simp)
    simp only [extractDomainMappings]
    intro r hrm c hc a b h1 h2
    exact hr r ((sortById_perm _).mem_iff.mp hrm) c hc a b h1 h2

/-- Witness for C7: the 50/10 record is normalized to 10/50 (through the
swap clause and through the full extraction), and an in-order pair is kept. -/
theorem claim_C7_witness :
    ((10 : Int) < 50) ∧
    normalizeRange (some (50 : Int)) (some (10 : Int)) = (some 10, some 50) ∧
    normalizeRange (some (3 : Int)) (some (7 : Int)) = (some 3, some 7) ∧
    ((extractDomainMappings [mapInverted] "CATH" "F" "FN").map
      (fun r => r.chunks.map (fun c => (c.startResidue, c.endResidue)))
      = [[(some 10, some 50)]]) ∧
    (∀ r ∈ extractDomainMappings [mapInverted] "CATH" "F" "FN", ∀ c ∈ r.chunks,
      ∀ a b : Int, c.startResidue = some a → c.endResidue = some b → a ≤ b) :=
  ⟨by decide,
    (claim_C7 [mapInverted] "CATH" "F" "FN").1 50 10 (by decide),
    (claim_C7 [mapInverted] "CATH" "F" "FN").2.1 (some 3) (some 7)
      (by intro a b ha hb; rw [Option.some.injEq] at ha hb; omega),
    by decide,
    (claim_C7 [mapInverted] "CATH" "F" "FN").2.2⟩

/-! ### Claim C5 -/

theorem alistGet?_mem {α : Type} (m : List (String × α)) (k : String) (v : α)
    (h : alistGet? m k = some v) : (k, v) ∈ m := by
  unfold alistGet? at h
  cases hf : m.find? (fun p => p.1 == k) with
  | none => rw [hf] at h; cases h
  | some p =>
    rw [hf] at h
    simp only [Option.map_some', Option.some.injEq] at h
    have hp := List.find?_some hf
    have hmem := List.mem_of_find?_eq_some hf
    obtain ⟨p1, p2⟩ := p
    simp only at hp h
    have hk : p1 = k := by simpa using hp
    subst hk
    subst h
    exact hmem

theorem mem_alistUpd {α : Type} (k : String) (d : α) (f : α → α) :
    ∀ (m : List (String × α)) (p : String × α), p ∈ alistUpd k d f m →
      p ∈ m ∨ p = (k, f ((alistGet? m k).getD d)) := by
  intro m
  induction m with
  | nil =>
    intro p hp
    rw [alistUpd] at hp
    right
    simpa [alistGet?] using List.mem_singleton.mp hp
  | cons q rest ih =>
    intro p hp
    obtain ⟨k0, v⟩ := q
    by_cases h : k0 == k
    · have hk : k0 = k := eq_of_beq h
      subst hk
      rw [alistUpd, if_pos h] at hp
      rcases List.mem_cons.mp hp with rfl | hp
      · right
        rw [alistGet?_cons, if_pos rfl]
        rfl
      · exact Or.inl (List.mem_cons_of_mem _ hp)
    · have hk : k0 ≠ k := fun hh => h (beq_iff_eq.mpr hh)
      rw [alistUpd, if_neg h] at hp
      rcases List.mem_cons.mp hp with rfl | hp
      · exact Or.inl (List.mem_cons_self _ _)
      · rcases ih p hp with h' | h'
        · exact Or.inl (List.mem_cons_of_mem _ h')
        · right
          rw [alistGet?_cons, if_neg hk]
          exact h'

theorem forall_alistUpd {α : Type} (P : String × α → Prop) (k : String) (d : α) (f : α → α)
    (m : List (String × α)) (hm : ∀ p ∈ m, P p)
    (hnew : ∀ v, ((k, v) ∈ m ∨ v = d) → P (k, f v)) :
    ∀ p ∈ alistUpd k d f m, P p := by
  intro p hp
  rcases mem_alistUpd k d f m p hp with h | h
  · exact hm p h
  · subst h
    cases halist : alistGet? m k with
    | none => exact hnew d (Or.inr rfl)
    | some v => exact hnew v (Or.inl (alistGet?_mem m k v halist))

theorem sum_alistUpd {α : Type} (val : α → Nat) (k : String) (d : α) (f : α → α) (cinc : Nat)
    (hf : ∀ v, val (f v) = val v + cinc) (hd : val d = 0) :
    ∀ m : List (String × α),
      ((alistUpd k d f m).map (fun p => val p.2)).sum
        = (m.map (fun p => val p.2)).sum + cinc := by
  intro m
  induction m with
  | nil => simp [alistUpd, hf, hd]
  | cons q rest ih =>
    obtain ⟨k0, v⟩ := q
    by_cases h : k0 == k
    · rw [alistUpd, if_pos h]
      simp only [List.map_cons, List.sum_cons, hf]
      omega
    · rw [alistUpd, if_neg h]
      simp only [List.map_cons, List.sum_cons, ih]
      omega

/-- Number of occurrences of the record `d0` across every bucket of the
reindexed structure. -/
def countRecordIn (d0 : DomainRecord) (out : DomainsBySourceFamilyEntity) : Nat :=
  (out.map (fun se =>
    (se.2.map (fun fe => (fe.2.map (fun ee => ee.2.count d0)).sum)).sum)).sum

/-- Every record of every bucket has its first chunk's entity id equal to
the bucket's entity key. -/
def entityPlacementOk (out : DomainsBySourceFamilyEntity) : Prop :=
  ∀ se ∈ out, ∀ fe ∈ se.2, ∀ ee ∈ fe.2, ∀ d ∈ ee.2,
    d.chunks.head?.map (fun c => c.entityId) = some ee.1

theorem sdbeLoop_spec :
    ∀ (triples : List (String × String × DomainRecord)) (acc : DomainsBySourceFamilyEntity),
      (∀ t ∈ triples, t.2.2.chunks ≠ []) →
      entityPlacementOk acc →
      ∃ out, sortDomainsByEntityLoop triples acc = some out ∧
        entityPlacementOk out ∧
        ∀ d0 : DomainRecord, countRecordIn d0 out
          = countRecordIn d0 acc + (triples.map (fun t => t.2.2)).count d0 := by
  intro triples
  induction triples with
  | nil =>
    intro acc _ hplace
    exact ⟨acc, rfl, hplace, fun d0 => by simp⟩
  | cons t rest ih =>
    intro acc hne hplace
    obtain ⟨s, f, d⟩ := t
    have hdne : d.chunks ≠ [] := hne (s, f, d) (List.mem_cons_self _ rest)
    cases hh : d.chunks.head? with
    | none =>
      rw [List.head?_eq_none_iff] at hh
      exact absurd hh hdne
    | some c =>
      have hstep : sortDomainsByEntityLoop ((s, f, d) :: rest) acc
          = sortDomainsByEntityLoop rest
              (alistUpd s [] (alistUpd f [] (alistUpd c.entityId [] (fun l => l ++ [d]))) acc) := by
        rw [sortDomainsByEntityLoop, hh]
      set inner3 := alistUpd c.entityId [] (fun l => l ++ [d]) with hin3
      set inner2 := alistUpd f [] inner3 with hin2
      set acc' := alistUpd s [] inner2 acc with hacc'
      have hplace' : entityPlacementOk acc' := by
        unfold entityPlacementOk at hplace ⊢
        intro se hse
        refine forall_alistUpd
          (fun se => ∀ fe ∈ se.2, ∀ ee ∈ fe.2, ∀ d' ∈ ee.2,
            d'.chunks.head?.map (fun c => c.entityId) = some ee.1)
          s [] inner2 acc hplace ?_ se hse
        intro m1 hm1 fe hfe
        have hm1ok : ∀ fe ∈ m1, ∀ ee ∈ fe.2, ∀ d' ∈ ee.2,
            d'.chunks.head?.map (fun c => c.entityId) = some ee.1 := by
          rcases hm1 with hm1 | hm1
          · exact hplace (s, m1) hm1
          · subst hm1; intro fe hfe; cases hfe
        refine forall_alistUpd
          (fun fe => ∀ ee ∈ fe.2, ∀ d' ∈ ee.2,
            d'.chunks.head?.map (fun c => c.entityId) = some ee.1)
          f [] inner3 m1 hm1ok ?_ fe hfe
        intro m2 hm2 ee hee
        have hm2ok : ∀ ee ∈ m2, ∀ d' ∈ ee.2,
            d'.chunks.head?.map (fun c => c.entityId) = some ee.1 := by
          rcases hm2 with hm2 | hm2
          · exact hm1ok (f, m2) hm2
          · subst hm2; intro ee hee; cases hee
        refine forall_alistUpd
          (fun ee => ∀ d' ∈ ee.2,
            d'.chunks.head?.map (fun c => c.entityId) = some ee.1)
          c.entityId [] (fun l => l ++ [d]) m2 hm2ok ?_ ee hee
        intro l hl d' hd'
        rcases List.mem_append.mp hd' with hd' | hd'
        · rcases hl with hl | hl
          · exact hm2ok (c.entityId, l) hl d' hd'
          · subst hl; cases hd'
        · rw [List.mem_singleton.mp hd', hh]
          rfl
      have hcount' : ∀ d0, countRecordIn d0 acc'
          = countRecordIn d0 acc + (if d = d0 then 1 else 0) := by
        intro d0
        have h3 : ∀ l : List DomainRecord,
            (l ++ [d]).count d0 = l.count d0 + (if d = d0 then 1 else 0) := by
          intro l
          rw [List.count_append]
          rcases eq_or_ne d d0 with h | h
          · simp [h, List.count_singleton]
          · simp [h, Ne.symm h]
        have h3s : ∀ m2 : List (String × List DomainRecord),
            ((inner3 m2).map (fun p => p.2.count d0)).sum
              = (m2.map (fun p => p.2.count d0)).sum + (if d = d0 then 1 else 0) := by
          intro m2
          exact sum_alistUpd (fun l => l.count d0) c.entityId [] (fun l => l ++ [d]) _
            h3 (by simp) m2
        have h2s : ∀ m1 : List (String × List (String × List DomainRecord)),
            ((inner2 m1).map (fun p => (p.2.map (fun ee => ee.2.count d0)).sum)).sum
              = (m1.map (fun p => (p.2.map (fun ee => ee.2.count d0)).sum)).sum
                + (if d = d0 then 1 else 0) := by
          intro m1
          exact sum_alistUpd (fun m2 => (m2.map (fun ee => ee.2.count d0)).sum)
            f [] inner3 _ h3s (by simp) m1
        exact sum_alistUpd
          (fun m1 => (m1.map (fun fe => (fe.2.map (fun ee => ee.2.count d0)).sum)).sum)
          s [] inner2 _ h2s (by simp) acc
      obtain ⟨out, hout, hplaceOut, hcountOut⟩ :=
        ih acc' (fun t ht => hne t (List.mem_cons_of_mem _ ht)) hplace'
      refine ⟨out, hstep.trans hout, hplaceOut, ?_⟩
      intro d0
      rw [hcountOut d0, hcount' d0]
      have hcc : ((((s, f, d) :: rest).map (fun t => t.2.2)).count d0)
          = (rest.map (fun t => t.2.2)).count d0 + (if d = d0 then 1 else 0) := by
        simp only [List.map_cons, List.count_cons]
        rcases eq_or_ne d d0 with h | h
        · simp [h]
        · simp [h, Ne.symm h]
      rw [hcc]
      omega

/-- Claim C5: when every record has at least one chunk, `sortDomainsByEntity`
succeeds and places each `DomainRecord` under the entity id of its first
chunk only — every record in every bucket has first-chunk entity equal to
the bucket key, and each record occurrence of the input appears exactly once
across all buckets (no splitting or duplication across entities). -/
theorem claim_C5 (domains : DomainsBySourceFamily)
    (hne : ∀ t ∈ domainTriples domains, t.2.2.chunks ≠ []) :
    ∃ out, sortDomainsByEntity domains = some out ∧
      entityPlacementOk out ∧
      ∀ d0 : DomainRecord, countRecordIn d0 out
        = ((domainTriples domains).map (fun t => t.2.2)).count d0 := by
  obtain ⟨out, hout, hplace, hcount⟩ :=
    sdbeLoop_spec (domainTriples domains) [] hne (fun se hse => by cases hse)
  refine ⟨out, hout, hplace, ?_⟩
  intro d0
  rw [hcount d0]
  simp [countRecordIn]

/-- Staged decidable-equality instances for the nested reindexed structure,
so that concrete evaluations stay within the instance-search size limit. -/
instance : DecidableEq (List (String × List DomainRecord)) :=
  inferInstance

instance : DecidableEq (List (String × List (String × List DomainRecord))) :=
  inferInstance

instance : DecidableEq DomainsBySourceFamilyEntity :=
  inferInstance

/-- A two-chunk domain whose first chunk is entity "1" and second entity "2". -/
def domTwoEntities : DomainRecord :=
  { id := "d12", source := "S", family := "F", familyName := "FN",
    chunks := [DomainChunkRecord.mk "1" "A" "A" (some 1) (some 5) 1,
               DomainChunkRecord.mk "2" "B" "B" (some 6) (some 9) 2] }

/-- Witness for C5: the two-entity domain is placed solely under entity "1"
(the concrete evaluation shows the full reindexed structure), and the
theorem applies. -/
theorem claim_C5_witness :
    (∀ t ∈ domainTriples [("S", [("F", [domTwoEntities])])], t.2.2.chunks ≠ []) ∧
    sortDomainsByEntity [("S", [("F", [domTwoEntities])])]
      = some [("S", [("F", [("1", [domTwoEntities])])])] ∧
    (∃ out, sortDomainsByEntity [("S", [("F", [domTwoEntities])])] = some out ∧
      entityPlacementOk out ∧
      ∀ d0 : DomainRecord, countRecordIn d0 out
        = ((domainTriples [("S", [("F", [domTwoEntities])])]).map (fun t => t.2.2)).count d0) :=
  ⟨by decide, by decide, claim_C5 [("S", [("F", [domTwoEntities])])] (by decide)⟩
